import Mathlib

/-!
Shallow embedding of the trie-structured paged attention cache from
src/shortfin/python/shortfin_apps/llm/components/kvcache/trie_attention_cache.py.

Modelling conventions:
* TrieNode objects live in an append-only arena (a list); a node is identified
  by its arena index, which models Python object identity (nodes compare by
  identity in the source).  The root is always index 0, created first by the
  cache constructor.  Nodes are never removed from the arena: an evicted node
  is unlinked (its parent field cleared, its entry removed from its parent's
  children dict), exactly as in Python, where the object merely becomes
  garbage.
* Python dicts keyed by token tuples become association lists with
  replace-on-existing-key insertion (preserving insertion position, as CPython
  dicts do).
* Python sets of nodes become duplicate-free lists of node ids with
  add-if-absent insertion.
* time.monotonic() is modelled by a stream of pre-supplied readings
  (Cache.stamps), forced to be non-decreasing by taking a running maximum
  (Cache.now); an exhausted stream repeats the last reading.  This reflects
  that Python's monotonic clock is non-decreasing but not strictly increasing,
  so equal readings are possible.
* Exceptions are modelled by the PyErr type; every operation returns the cache
  state at the moment of the raise, since Python exceptions leave prior
  mutations in place.
-/

/-- Python exceptions that the modelled code can raise.
allocFailure models CacheAllocationFailure; typeErr models the TypeError from
comparing TrieNode objects (which define no ordering) inside the eviction
heap; keyErr models KeyError / missing-object accesses; nonterm is an
artifact of the fuel used to define the eviction loop and is proved
unreachable in the verified situations. -/
inductive PyErr where
  | allocFailure
  | typeErr
  | keyErr
  | nonterm
deriving DecidableEq, Repr, Inhabited

/-- TrieNode, from the dataclass in the source: token block, page handle,
children dict (token block to child), optional parent, reference count and
last access time.  Arena indices stand for object references. -/
structure TrieNode where
  tokens : List Nat
  page : Nat
  children : List (List Nat × Nat)
  parent : Option Nat
  ref_count : Int
  access_time : Nat
deriving DecidableEq, Repr, Inhabited

/-- TriePagedAttentionCache state: the node arena (index 0 is the root), the
leaves set, the page pool's free list (spec-modelled, see poolAcquireFreePages)
and the clock state. -/
structure Cache where
  tokens_per_page : Nat
  nodes : List TrieNode
  leaves : List Nat
  available_pages : List Nat
  now : Nat
  stamps : List Nat
deriving DecidableEq, Repr, Inhabited

/-- TriePageAttentionCacheAllocation: the allocation handle returned by
acquire_pages_for_tokens. -/
structure TriePageAttentionCacheAllocation where
  tokens : List Nat
  last_cached_node : Nat
  cached_pages : List Nat
  newly_acquired_pages : List Nat
  start_index : Nat
  is_released : Bool
deriving DecidableEq, Repr, Inhabited

abbrev Alloc := TriePageAttentionCacheAllocation

deriving instance DecidableEq for Except

/-- Modify the element at one index of a list (no-op when out of range). -/
def listModify : List α → Nat → (α → α) → List α
  | [], _, _ => []
  | x :: xs, 0, f => f x :: xs
  | x :: xs, n + 1, f => x :: listModify xs n f

/-- Python set add: append the element unless it is already present. -/
def listAdd (l : List Nat) (x : Nat) : List Nat :=
  if x ∈ l then l else l ++ [x]

/-- Python dict lookup on an association list. -/
def dictGet (l : List (List Nat × Nat)) (k : List Nat) : Option Nat :=
  match l with
  | [] => none
  | (k0, v0) :: rest => if k0 = k then some v0 else dictGet rest k

/-- Python dict assignment: replace the value at an existing key in place,
otherwise append the binding. -/
def dictInsert (l : List (List Nat × Nat)) (k : List Nat) (v : Nat) :
    List (List Nat × Nat) :=
  match l with
  | [] => [(k, v)]
  | (k0, v0) :: rest =>
      if k0 = k then (k0, v) :: rest else (k0, v0) :: dictInsert rest k v

/-- Python del dict[k]: remove the binding at a key (keys are unique). -/
def dictErase (l : List (List Nat × Nat)) (k : List Nat) :
    List (List Nat × Nat) :=
  match l with
  | [] => []
  | (k0, v0) :: rest => if k0 = k then rest else (k0, v0) :: dictErase rest k

/-- Dereference a node id in the arena. -/
def getNode (c : Cache) (i : Nat) : Option TrieNode :=
  c.nodes.get? i

/-- Dereference with a default, for bounded decidable statements. -/
def nodeAt (c : Cache) (i : Nat) : TrieNode :=
  (getNode c i).getD default

/-- Apply a field update to the node at an id. -/
def modifyNode (c : Cache) (i : Nat) (f : TrieNode → TrieNode) : Cache :=
  { c with nodes := listModify c.nodes i f }

/-- node.ref_count += d -/
def bumpRef (c : Cache) (i : Nat) (d : Int) : Cache :=
  modifyNode c i (fun n => { n with ref_count := n.ref_count + d })

/-- Modelled from the spec: time.monotonic() (the time module is outside this
repository).  Returns the next reading of the clock stream, clamped to be
non-decreasing; an exhausted stream repeats the current time. -/
def tickTime (c : Cache) : Nat × Cache :=
  match c.stamps with
  | [] => (c.now, c)
  | t :: rest =>
      let v := max c.now t
      (v, { c with now := v, stamps := rest })

/-- TriePagedAttentionCache.__init__ after its tokens_per_page check: an arena
holding just the root node (dummy page index 0, empty token block, fresh
timestamp) and an empty leaves set. -/
def mkCache (tpp : Nat) (pool : List Nat) (stamps : List Nat) : Cache :=
  let c0 : Cache :=
    { tokens_per_page := tpp, nodes := [], leaves := [],
      available_pages := pool, now := 0, stamps := stamps }
  let tc := tickTime c0
  { tc.2 with
    nodes := [{ tokens := [], page := 0, children := [], parent := none,
                ref_count := 0, access_time := tc.1 }] }

/-- TrieNode.create_child: construct the child (fresh timestamp via
__post_init__, ref_count 0, parented to the creator) and bind it in the
creator's children dict.  Returns the new node's id (= old arena length). -/
def create_child (c : Cache) (parentId : Nat) (blk : List Nat) (pg : Nat) :
    Cache × Nat :=
  let tc := tickTime c
  let c1 := tc.2
  let newId := c1.nodes.length
  let node : TrieNode :=
    { tokens := blk, page := pg, children := [], parent := some parentId,
      ref_count := 0, access_time := tc.1 }
  let c2 := { c1 with nodes := c1.nodes ++ [node] }
  let c3 := modifyNode c2 parentId
    (fun n => { n with children := dictInsert n.children blk newId })
  (c3, newId)

/-- The token slices taken by Python list slicing over
range(start, stop, step): slices tokens[i : i + step] for i = start,
start + step, ... while i < stop.  The final slice may be shorter than step
when stop is not aligned.  Written in closed form: the iteration count of the
range is the ceiling of (stop - start) / step. -/
def sliceBlocks (toks : List Nat) (start stop step : Nat) : List (List Nat) :=
  (List.range ((stop - start + step - 1) / step)).map
    (fun i => (toks.drop (start + i * step)).take step)

/-- The descent loop of TriePagedAttentionCache._match: follow children keyed
by successive token blocks, refresh each visited node's access time and
collect its page; stop at the first block with no child.  Returns the updated
cache, the deepest node reached and the matched pages in descent order. -/
def matchLoop (c : Cache) (cur : Nat) (blocks : List (List Nat))
    (acc : List Nat) : Cache × Nat × List Nat :=
  match blocks with
  | [] => (c, cur, acc.reverse)
  | b :: rest =>
    match getNode c cur with
    | none => (c, cur, acc.reverse)
    | some n =>
      match dictGet n.children b with
      | none => (c, cur, acc.reverse)
      | some j =>
        let tc := tickTime c
        let c2 := modifyNode tc.2 j (fun m => { m with access_time := tc.1 })
        match getNode c2 j with
        | none => (c2, j, acc.reverse)
        | some m => matchLoop c2 j rest (m.page :: acc)

/-- TriePagedAttentionCache._match. -/
def trieMatch (c : Cache) (tokens : List Nat) : Cache × Nat × List Nat :=
  matchLoop c 0 (sliceBlocks tokens 0 tokens.length c.tokens_per_page) []

/-- The graft loop of publish_pages: create_child for each (block, page) pair,
descending into each new node. -/
def graftBlocks (c : Cache) (cur : Nat) : List (List Nat × Nat) → Cache × Nat
  | [] => (c, cur)
  | (blk, pg) :: rest =>
      let r := create_child c cur blk pg
      graftBlocks r.1 r.2 rest

/-- The uncached token blocks computed by publish_pages: Python slices
tokens[i : i + tpp] over range(first_uncached_page_index * tpp,
publish_token_count, tpp), where publish_token_count clamps the requested
page count to the token list. -/
def publishUncachedTokens (c : Cache) (a : Alloc) (up_to_page_index : Nat) :
    List (List Nat) :=
  sliceBlocks a.tokens (a.cached_pages.length * c.tokens_per_page)
    (min a.tokens.length (up_to_page_index * c.tokens_per_page))
    c.tokens_per_page

/-- TriePageAttentionCacheAllocation.publish_pages. -/
def publish_pages (c : Cache) (a : Alloc) (up_to_page_index : Nat) :
    Cache × Alloc :=
  let uncached_tokens := publishUncachedTokens c a up_to_page_index
  let uncached_pages := a.newly_acquired_pages.take uncached_tokens.length
  let g := graftBlocks c a.last_cached_node (uncached_tokens.zip uncached_pages)
  let c1 := g.1
  let curEnd := g.2
  let cached2 := a.cached_pages ++ uncached_pages
  let newly2 := a.newly_acquired_pages.drop uncached_pages.length
  let c2 := if curEnd ≠ 0 then { c1 with leaves := listAdd c1.leaves curEnd }
            else c1
  let c3 := bumpRef c2 curEnd 1
  let c4 := bumpRef c3 a.last_cached_node (-1)
  (c4, { a with cached_pages := cached2, newly_acquired_pages := newly2,
                last_cached_node := curEnd })

/-- TriePageAttentionCacheAllocation.release_pages. -/
def release_pages (c : Cache) (a : Alloc) : Cache × Alloc :=
  if a.is_released then (c, a)
  else (bumpRef c a.last_cached_node (-1), { a with is_released := true })

/-- Modelled from the spec: PagePool.acquire_free_pages(n) (page_pool.py is
outside src/).  All-or-nothing: returns the first n free pages, or none when
fewer than n are available.  A non-positive request yields the empty list. -/
def poolAcquireFreePages (c : Cache) (n : Int) :
    Option (List Nat × Cache) :=
  if n ≤ (c.available_pages.length : Int) then
    some (c.available_pages.take n.toNat,
          { c with available_pages := c.available_pages.drop n.toNat })
  else none

/-- Modelled from the spec: PagePool.free_pages(pages) returns pages to the
pool's free list. -/
def poolFreePages (c : Cache) (pages : List Nat) : Cache :=
  { c with available_pages := c.available_pages ++ pages }

/-- math.ceil(a / b) for integer a and positive b. -/
def ceilDivInt (a b : Int) : Int :=
  -((-a).fdiv b)

/-- Comparison of two eviction-heap entries (access_time, node), following
Python tuple comparison.  Modelled from the spec of Python semantics: equal
access times fall through to comparing the TrieNode objects, which define
__eq__ (identity) but no __lt__, so distinct tied nodes raise TypeError;
an entry never compares below itself. -/
def entryLt (a b : Nat × Nat) : Except PyErr Bool :=
  if a.1 = b.1 then
    (if a.2 = b.2 then .ok false else .error .typeErr)
  else .ok (decide (a.1 < b.1))

/-- Modelled from the spec: heapq.heappop over our heap collection (heapq is
the Python standard library, outside this repository).  Its documented
behaviour is to remove and return the smallest entry; entry comparisons follow
entryLt and can raise TypeError on tied access times. -/
def popMin : List (Nat × Nat) →
    Except PyErr ((Nat × Nat) × List (Nat × Nat))
  | [] => .error .keyErr
  | [e] => .ok (e, [])
  | a :: b :: rest =>
    match popMin (b :: rest) with
    | .error er => .error er
    | .ok (m, rest1) =>
      match entryLt a m with
      | .error er => .error er
      | .ok true => .ok (a, b :: rest)
      | .ok false => .ok (m, a :: rest1)

/-- The heap initializer of _evict_pages: one (access_time, leaf) entry per
leaf in the leaves set with ref_count 0, in the set's iteration order. -/
def initialHeap (c : Cache) : List (Nat × Nat) :=
  c.leaves.filterMap (fun i =>
    match getNode c i with
    | some n => if n.ref_count = 0 then some (n.access_time, i) else none
    | none => none)

/-- The while loop of _evict_pages.  Each iteration pops the least recently
used entry, records its page, unlinks the node from its parent, removes it
from the leaves set (KeyError if absent, as Python set.remove), and promotes a
newly childless non-root parent to the leaves set, pushing it onto the heap
when unreferenced.  acc collects (node id, page) in eviction order.  fuel is a
modelling artifact; it is chosen large enough in evict_pages and proved
sufficient under the data-model invariants. -/
def evictLoop (fuel : Nat) (c : Cache) (heap : List (Nat × Nat))
    (acc : List (Nat × Nat)) (maxPages : Int) :
    (Except PyErr (List (Nat × Nat))) × Cache :=
  match fuel with
  | 0 => (.error .nonterm, c)
  | fuel + 1 =>
    if heap.isEmpty ∨ ¬((acc.length : Int) < maxPages) then (.ok acc, c)
    else
      match popMin heap with
      | .error e => (.error e, c)
      | .ok ((_, i), heap1) =>
        match getNode c i with
        | none => (.error .keyErr, c)
        | some n =>
          let acc1 := acc ++ [(i, n.page)]
          let c1 := match n.parent with
            | none => c
            | some p => modifyNode c p
                (fun pn => { pn with children := dictErase pn.children n.tokens })
          let c2 := modifyNode c1 i (fun m => { m with parent := none })
          if i ∈ c2.leaves then
            let c3 := { c2 with leaves := c2.leaves.filter (fun x => x ≠ i) }
            match n.parent with
            | none => evictLoop fuel c3 heap1 acc1 maxPages
            | some p =>
              match getNode c3 p with
              | none => (.error .keyErr, c3)
              | some pn =>
                if p ≠ 0 ∧ pn.children = [] then
                  let c4 := { c3 with leaves := listAdd c3.leaves p }
                  if pn.ref_count = 0 then
                    evictLoop fuel c4 (heap1 ++ [(pn.access_time, p)]) acc1
                      maxPages
                  else evictLoop fuel c4 heap1 acc1 maxPages
                else evictLoop fuel c3 heap1 acc1 maxPages
          else (.error .keyErr, c2)

/-- TriePagedAttentionCache._evict_pages: build the heap of unreferenced
leaves, run the eviction loop, return the freed pages to the pool in one batch
(only when something was evicted) and report the count. -/
def evict_pages (c : Cache) (maxPages : Int) : (Except PyErr Nat) × Cache :=
  let heap := initialHeap c
  match evictLoop (c.nodes.length + heap.length + 2) c heap [] maxPages with
  | (.error e, c1) => (.error e, c1)
  | (.ok popped, c1) =>
    let c2 := if popped.isEmpty then c1 else poolFreePages c1 (popped.map (·.2))
    (.ok popped.length, c2)

/-- TriePagedAttentionCache.acquire_pages_for_tokens. -/
def acquire_pages_for_tokens (c : Cache) (tokens : List Nat)
    (extra_token_slots : Int) : (Except PyErr Alloc) × Cache :=
  let m := trieMatch c tokens
  let curNode := m.2.1
  let matchedPages := m.2.2
  let c2 := bumpRef m.1 curNode 1
  let n_cached_tokens := matchedPages.length * c.tokens_per_page
  let remaining_length : Int :=
    (tokens.length : Int) - (n_cached_tokens : Int) + extra_token_slots
  let n_empty_pages : Int := ceilDivInt remaining_length c.tokens_per_page
  match poolAcquireFreePages c2 n_empty_pages with
  | some (new_pages, c3) =>
      (.ok { tokens := tokens, last_cached_node := curNode,
             cached_pages := matchedPages,
             newly_acquired_pages := new_pages,
             start_index := n_cached_tokens, is_released := false }, c3)
  | none =>
    match evict_pages c2 (n_empty_pages - (c2.available_pages.length : Int)) with
    | (.error e, c3) => (.error e, c3)
    | (.ok _, c3) =>
      match poolAcquireFreePages c3 n_empty_pages with
      | some (new_pages, c4) =>
          (.ok { tokens := tokens, last_cached_node := curNode,
                 cached_pages := matchedPages,
                 newly_acquired_pages := new_pages,
                 start_index := n_cached_tokens, is_released := false }, c4)
      | none => (.error .allocFailure, c3)

/-! The system view used for whole-trace statements: the cache together with
every allocation handed out so far, and the top-level operation alphabet. -/

structure SysState where
  cache : Cache
  allocs : List Alloc
deriving DecidableEq, Repr, Inhabited

inductive Op where
  | acq (tokens : List Nat) (extra : Int)
  | pub (idx : Nat) (upTo : Nat)
  | rel (idx : Nat)
  | evict (n : Int)
deriving DecidableEq, Repr, Inhabited

/-- One top-level operation, as the host would invoke it.  A failed acquire
adds no allocation but keeps the cache state at the raise, as in Python.
Out-of-range allocation indices leave the state unchanged (such traces are
excluded by wfTrace). -/
def runOp (s : SysState) (op : Op) : SysState :=
  match op with
  | .acq toks extra =>
      match acquire_pages_for_tokens s.cache toks extra with
      | (.ok a, c1) => { cache := c1, allocs := s.allocs ++ [a] }
      | (.error _, c1) => { cache := c1, allocs := s.allocs }
  | .pub i k =>
      match s.allocs.get? i with
      | none => s
      | some a =>
          let r := publish_pages s.cache a k
          { cache := r.1, allocs := s.allocs.set i r.2 }
  | .rel i =>
      match s.allocs.get? i with
      | none => s
      | some a =>
          let r := release_pages s.cache a
          { cache := r.1, allocs := s.allocs.set i r.2 }
  | .evict n => { s with cache := (evict_pages s.cache n).2 }

def runOps (s : SysState) (ops : List Op) : SysState :=
  ops.foldl runOp s

def mkSys (tpp : Nat) (pool : List Nat) (stamps : List Nat) : SysState :=
  { cache := mkCache tpp pool stamps, allocs := [] }

/-- Well-formed next operation: acquires succeed, publish targets a live
(unreleased) allocation — per the spec's lifecycle, release terminates an
allocation — and release targets an existing allocation. -/
def okOpB (s : SysState) : Op → Bool
  | .acq toks extra =>
      match acquire_pages_for_tokens s.cache toks extra with
      | (.ok _, _) => true
      | (.error _, _) => false
  | .pub i _ =>
      match s.allocs.get? i with
      | some a => !a.is_released
      | none => false
  | .rel i => decide (i < s.allocs.length)
  | .evict _ => true

/-- A trace is well formed when every operation is well formed in the state
it executes in. -/
def wfTrace : SysState → List Op → Bool
  | _, [] => true
  | s, op :: ops => okOpB s op && wfTrace (runOp s op) ops

/-- Number of live (unreleased) allocations whose last_cached_node is node i. -/
def countLive (s : SysState) (i : Nat) : Nat :=
  s.allocs.countP (fun a => !a.is_released && a.last_cached_node == i)

/-- Number of live (unreleased) allocations. -/
def liveAllocs (s : SysState) : Nat :=
  s.allocs.countP (fun a => !a.is_released)

/-- Sum of ref_count over every node of the cache. -/
def sumRefs (c : Cache) : Int :=
  (c.nodes.map (fun n => n.ref_count)).sum

/-! Concrete scenario states used by individual claims. -/

/-- A well-formed trace: acquire an 8-token sequence (tokens_per_page 4),
publish the first page, then publish up to the second page. -/
def c1Trace : List Op := [.acq [1,2,3,4,5,6,7,8] 0, .pub 0 1, .pub 0 2]

def c1State : SysState := runOps (mkSys 4 [10, 20, 30] []) c1Trace

/-- A well-formed trace: acquire a 5-token sequence (tokens_per_page 4) and
publish up to 2 pages. -/
def c2Trace : List Op := [.acq [1,2,3,4,5] 0, .pub 0 2]

def c2State : SysState := runOps (mkSys 4 [10, 20] []) c2Trace

/-- A single acquire against an empty page pool, which raises
CacheAllocationFailure after attempting eviction. -/
def c3Trace : List Op := [.acq [7] 0]

def c3State : SysState := runOps (mkSys 1 [] []) c3Trace

/-- A well-formed trace producing two unreferenced leaves with equal access
times (the monotonic clock returned the same reading, stream of 5s):
acquire, publish and release two disjoint one-token sequences. -/
def c10Trace : List Op :=
  [.acq [1] 0, .pub 0 1, .rel 0, .acq [2] 0, .pub 1 1, .rel 1]

def c10State : SysState := runOps (mkSys 1 [10, 20] [5,5,5,5,5,5,5,5,5,5]) c10Trace

/-- C1 (code bug): leaf-set correctness fails on the code.  After the
well-formed operation sequence acquire [1..8], publish_pages(1),
publish_pages(2) from a fresh cache with tokens_per_page 4, the second publish
grafts a child under the previous last_cached_node (node 1, a leaf at that
point), yet node 1 remains in the leaves set although its children mapping is
now non-empty — publish_pages never removes the old last_cached_node from
leaves.  So leaves differs from the set of non-root nodes with empty
children. -/
theorem c1_leafset_code_bug :
    wfTrace (mkSys 4 [10, 20, 30] []) c1Trace = true ∧
    1 ∈ c1State.cache.leaves ∧
    (nodeAt c1State.cache 1).children = [([5, 6, 7, 8], 2)] := by
  decide

/-- C2 (code bug): publish_pages grafts a final partial block.  After
acquiring the 5-token sequence [1,2,3,4,5] with tokens_per_page 4 and
publishing up to 2 pages, the code grafts two nodes, the second keyed by the
length-1 partial block [5] (consuming page 20 for it), instead of grafting
only the full block [1,2,3,4] and dropping the partial tail as the claim
states. -/
theorem c2_partial_block_code_bug :
    wfTrace (mkSys 4 [10, 20] []) c2Trace = true ∧
    c2State.cache.nodes.length = 3 ∧
    (nodeAt c2State.cache 1).tokens = [1, 2, 3, 4] ∧
    (nodeAt c2State.cache 1).children = [([5], 2)] ∧
    (nodeAt c2State.cache 2).tokens = [5] ∧
    (nodeAt c2State.cache 2).page = 20 ∧
    (nodeAt c2State.cache 2).tokens.length ≠ c2State.cache.tokens_per_page := by
  decide

/-- C3 counterexample: refcount correctness fails as stated.  Executing the
top-level operation acquire_pages_for_tokens([7]) on a fresh cache whose page
pool is empty raises CacheAllocationFailure after the match phase already
incremented the root's ref_count; no Allocation is returned, so afterwards the
root's ref_count is 1 while 0 live Allocations point at it, and the sum of
ref_count (1) differs from the number of live Allocations (0). -/
theorem c3_refcount_cex :
    (nodeAt c3State.cache 0).ref_count = 1 ∧
    countLive c3State 0 = 0 ∧
    sumRefs c3State.cache = 1 ∧
    liveAllocs c3State = 0 := by
  decide

/-- C10 counterexample: _evict_pages is not total on reachable states.  The
well-formed trace c10Trace (two disjoint one-token sequences acquired,
published and released while the monotonic clock kept returning the same
reading) leaves two unreferenced leaves with equal access_time; the eviction
heap then compares two (access_time, TrieNode) entries with equal first
components, falls through to comparing the TrieNode objects, which define
equality by identity but no ordering, and raises TypeError instead of
returning a count. -/
theorem c10_evict_tie_cex :
    wfTrace (mkSys 1 [10, 20] [5,5,5,5,5,5,5,5,5,5]) c10Trace = true ∧
    (nodeAt c10State.cache 1).access_time = (nodeAt c10State.cache 2).access_time ∧
    (evict_pages c10State.cache 2).1 = .error .typeErr := by
  decide

/-- C8: release_pages is idempotent.  The first call on an unreleased
allocation decrements exactly the last_cached_node's ref_count (the cache is
otherwise untouched) and sets the released flag; a call on a released
allocation, in particular any subsequent call, changes neither the cache nor
the allocation. -/
theorem c8_release_idempotent (c : Cache) (a : Alloc) :
    (release_pages (release_pages c a).1 (release_pages c a).2
        = ((release_pages c a).1, (release_pages c a).2)) ∧
    (a.is_released = false →
      release_pages c a
        = (bumpRef c a.last_cached_node (-1), { a with is_released := true })) ∧
    (a.is_released = true → release_pages c a = (c, a)) := by
  by_cases h : a.is_released
  · simp [release_pages, h]
  · simp at h
    simp [release_pages, h]

/-- Witness for C8 at a concrete unreleased allocation. -/
def c8Alloc : Alloc :=
  { tokens := [1], last_cached_node := 1, cached_pages := [],
    newly_acquired_pages := [10], start_index := 0, is_released := false }

theorem c8_release_witness :
    (release_pages (release_pages (mkCache 1 [] []) c8Alloc).1
        (release_pages (mkCache 1 [] []) c8Alloc).2
      = ((release_pages (mkCache 1 [] []) c8Alloc).1,
         (release_pages (mkCache 1 [] []) c8Alloc).2)) ∧
    (c8Alloc.is_released = false →
      release_pages (mkCache 1 [] []) c8Alloc
        = (bumpRef (mkCache 1 [] []) c8Alloc.last_cached_node (-1),
           { c8Alloc with is_released := true })) ∧
    (c8Alloc.is_released = true →
      release_pages (mkCache 1 [] []) c8Alloc = (mkCache 1 [] [], c8Alloc)) :=
  c8_release_idempotent (mkCache 1 [] []) c8Alloc

/-! Basic lemmas about the arena primitives. -/

theorem listModify_length (l : List α) (j : Nat) (f : α → α) :
    (listModify l j f).length = l.length := by
  induction l generalizing j with
  | nil => rfl
  | cons x xs ih =>
    cases j with
    | zero => simp [listModify]
    | succ j => simp [listModify, ih]


theorem listModify_get? (l : List α) (j i : Nat) (f : α → α) :
    (listModify l j f)[i]? = if i = j then (l[i]?).map f else l[i]? := by
  induction l generalizing i j with
  | nil => simp [listModify]
  | cons x xs ih =>
    cases j with
    | zero =>
      cases i with
      | zero => simp [listModify]
      | succ i => simp [listModify]
    | succ j =>
      cases i with
      | zero => simp [listModify]
      | succ i =>
        simp only [listModify, List.getElem?_cons_succ, ih]
        by_cases h : i = j <;> simp [h]

theorem getNode_modifyNode (c : Cache) (j i : Nat) (f : TrieNode → TrieNode) :
    getNode (modifyNode c j f) i
      = if i = j then (getNode c i).map f else getNode c i := by
  simp [getNode, modifyNode, listModify_get?]

theorem modifyNode_leaves (c : Cache) (j : Nat) (f : TrieNode → TrieNode) :
    (modifyNode c j f).leaves = c.leaves := rfl

theorem tickTime_nodes (c : Cache) : (tickTime c).2.nodes = c.nodes := by
  rcases c with ⟨tpp, nodes, leaves, pool, now, stamps⟩
  cases stamps <;> rfl

theorem tickTime_leaves (c : Cache) : (tickTime c).2.leaves = c.leaves := by
  rcases c with ⟨tpp, nodes, leaves, pool, now, stamps⟩
  cases stamps <;> rfl

theorem tickTime_pool (c : Cache) :
    (tickTime c).2.available_pages = c.available_pages := by
  rcases c with ⟨tpp, nodes, leaves, pool, now, stamps⟩
  cases stamps <;> rfl

theorem tickTime_tpp (c : Cache) :
    (tickTime c).2.tokens_per_page = c.tokens_per_page := by
  rcases c with ⟨tpp, nodes, leaves, pool, now, stamps⟩
  cases stamps <;> rfl

theorem tickTime_getNode (c : Cache) (i : Nat) :
    getNode (tickTime c).2 i = getNode c i := by
  simp [getNode, tickTime_nodes]

/-- Erase the access time, the only field _match may update. -/
def stripTime (n : TrieNode) : TrieNode := { n with access_time := 0 }

def pureMatchLoop (c : Cache) (cur : Nat) :
    List (List Nat) → Nat × List Nat × List Nat
  | [] => (cur, [], [])
  | b :: rest =>
    match getNode c cur with
    | none => (cur, [], [])
    | some n =>
      match dictGet n.children b with
      | none => (cur, [], [])
      | some j =>
        match getNode c j with
        | none => (j, [], [j])
        | some m =>
          let r := pureMatchLoop c j rest
          (r.1, m.page :: r.2.1, j :: r.2.2)

/-- The pure counterpart of _match. -/
def pureTrieMatch (c : Cache) (tokens : List Nat) : Nat × List Nat × List Nat :=
  pureMatchLoop c 0 (sliceBlocks tokens 0 tokens.length c.tokens_per_page)

/-- Two caches with the same nodes up to access times. -/
def SameSkel (c d : Cache) : Prop :=
  ∀ i, (getNode c i).map stripTime = (getNode d i).map stripTime

theorem pureMatchLoop_skel (blocks : List (List Nat)) :
    ∀ c d cur, SameSkel c d →
      pureMatchLoop c cur blocks = pureMatchLoop d cur blocks := by
  induction blocks with
  | nil => intro c d cur h; rfl
  | cons b rest ih =>
    intro c d cur h
    have hcur := h cur
    cases hc : getNode c cur with
    | none =>
      cases hd : getNode d cur with
      | none => simp [pureMatchLoop, hc, hd]
      | some n' => rw [hc, hd] at hcur; simp at hcur
    | some n =>
      cases hd : getNode d cur with
      | none => rw [hc, hd] at hcur; simp at hcur
      | some n' =>
        rw [hc, hd] at hcur
        simp only [Option.map_some'] at hcur
        injection hcur with hstrip
        have hch : n.children = n'.children := by
          simpa [stripTime] using congrArg TrieNode.children hstrip
        cases hg : dictGet n.children b with
        | none =>
          have hg' : dictGet n'.children b = none := by rw [← hch]; exact hg
          simp [pureMatchLoop, hc, hd, hg, hg']
        | some j =>
          have hg' : dictGet n'.children b = some j := by rw [← hch]; exact hg
          have hj := h j
          cases hcj : getNode c j with
          | none =>
            cases hdj : getNode d j with
            | none => simp [pureMatchLoop, hc, hd, hg, hg', hcj, hdj]
            | some m' => rw [hcj, hdj] at hj; simp at hj
          | some m =>
            cases hdj : getNode d j with
            | none => rw [hcj, hdj] at hj; simp at hj
            | some m' =>
              rw [hcj, hdj] at hj
              simp only [Option.map_some'] at hj
              injection hj with hjstrip
              have hpg : m.page = m'.page := by
                simpa [stripTime] using congrArg TrieNode.page hjstrip
              simp [pureMatchLoop, hc, hd, hg, hg', hcj, hdj, hpg, ih c d j h]

theorem sameSkel_trans {a b c : Cache} (h1 : SameSkel a b) (h2 : SameSkel b c) :
    SameSkel a c := fun i => (h1 i).trans (h2 i)

theorem stripTime_touch (m : TrieNode) (t : Nat) :
    stripTime { m with access_time := t } = stripTime m := rfl

/-- The _match descent only refreshes access times of the visited nodes:
nodes keep every other field, untouched nodes keep all fields, and the leaves
set, pool and configuration are untouched; the returned node and pages agree
with the pure reference walk on the starting cache. -/
theorem matchLoop_master (blocks : List (List Nat)) :
    ∀ c cur acc,
      SameSkel (matchLoop c cur blocks acc).1 c ∧
      (matchLoop c cur blocks acc).1.leaves = c.leaves ∧
      (matchLoop c cur blocks acc).1.available_pages = c.available_pages ∧
      (matchLoop c cur blocks acc).1.tokens_per_page = c.tokens_per_page ∧
      (∀ i, i ∉ (pureMatchLoop c cur blocks).2.2 →
        getNode (matchLoop c cur blocks acc).1 i = getNode c i) ∧
      (matchLoop c cur blocks acc).2.1 = (pureMatchLoop c cur blocks).1 ∧
      (matchLoop c cur blocks acc).2.2
        = acc.reverse ++ (pureMatchLoop c cur blocks).2.1 := by
  induction blocks with
  | nil =>
    intro c cur acc
    refine ⟨fun i => rfl, rfl, rfl, rfl, fun i _ => rfl, rfl, ?_⟩
    simp [matchLoop, pureMatchLoop]
  | cons b rest ih =>
    intro c cur acc
    cases hc : getNode c cur with
    | none =>
      refine ⟨?_, ?_, ?_, ?_, ?_, ?_, ?_⟩ <;>
        simp [matchLoop, pureMatchLoop, hc, SameSkel]
    | some n =>
      cases hg : dictGet n.children b with
      | none =>
        refine ⟨?_, ?_, ?_, ?_, ?_, ?_, ?_⟩ <;>
          simp [matchLoop, pureMatchLoop, hc, hg, SameSkel]
      | some j =>
        have hskel2 : SameSkel (modifyNode (tickTime c).2 j
            (fun m => { m with access_time := (tickTime c).1 })) c := by
          intro i
          rw [getNode_modifyNode]
          by_cases hij : i = j
          · subst hij
            rw [tickTime_getNode]
            cases getNode c i <;> simp [stripTime]
          · simp [hij, tickTime_getNode]
        set c2 := modifyNode (tickTime c).2 j
            (fun m => { m with access_time := (tickTime c).1 }) with hc2
        have hc2get : ∀ i, i ≠ j → getNode c2 i = getNode c i := by
          intro i hij
          rw [hc2, getNode_modifyNode]
          simp [hij, tickTime_getNode]
        have hc2j : getNode c2 j = (getNode c j).map
            (fun m => { m with access_time := (tickTime c).1 }) := by
          rw [hc2, getNode_modifyNode]
          simp [tickTime_getNode]
        have hc2leaves : c2.leaves = c.leaves := by
          rw [hc2, modifyNode_leaves, tickTime_leaves]
        have hc2pool : c2.available_pages = c.available_pages := by
          rw [hc2]
          show (tickTime c).2.available_pages = c.available_pages
          exact tickTime_pool c
        have hc2tpp : c2.tokens_per_page = c.tokens_per_page := by
          rw [hc2]
          show (tickTime c).2.tokens_per_page = c.tokens_per_page
          exact tickTime_tpp c
        cases hcj : getNode c j with
        | none =>
          have hj2 : getNode c2 j = none := by rw [hc2j, hcj]; rfl
          have hm : matchLoop c cur (b :: rest) acc = (c2, j, acc.reverse) := by
            simp [matchLoop, hc, hg, ← hc2, hj2]
          have hp : pureMatchLoop c cur (b :: rest) = (j, [], [j]) := by
            simp [pureMatchLoop, hc, hg, hcj]
          rw [hm, hp]
          refine ⟨hskel2, hc2leaves, hc2pool, hc2tpp, ?_, rfl, by simp⟩
          intro i hi
          simp at hi
          exact hc2get i hi
        | some m =>
          have hj2 : getNode c2 j = some { m with access_time := (tickTime c).1 } := by
            rw [hc2j, hcj]; rfl
          have hm : matchLoop c cur (b :: rest) acc
              = matchLoop c2 j rest (m.page :: acc) := by
            simp [matchLoop, hc, hg, ← hc2, hj2]
          have hp : pureMatchLoop c cur (b :: rest)
              = ((pureMatchLoop c j rest).1,
                 m.page :: (pureMatchLoop c j rest).2.1,
                 j :: (pureMatchLoop c j rest).2.2) := by
            simp [pureMatchLoop, hc, hg, hcj]
          have hpure2 : pureMatchLoop c2 j rest = pureMatchLoop c j rest :=
            pureMatchLoop_skel rest c2 c j hskel2
          obtain ⟨s1, s2, s3, s4, s5, s6, s7⟩ := ih c2 j (m.page :: acc)
          rw [hm, hp]
          refine ⟨sameSkel_trans s1 hskel2, s2.trans hc2leaves,
            s3.trans hc2pool, s4.trans hc2tpp, ?_, ?_, ?_⟩
          · intro i hi
            simp only [List.mem_cons, not_or] at hi
            have h5 := s5 i (by rw [hpure2]; exact hi.2)
            rw [h5]
            exact hc2get i hi.1
          · rw [s6, hpure2]
          · rw [s7, hpure2]
            simp

theorem sameSkel_map {α : Type} (f : TrieNode → α)
    (hf : ∀ n, f (stripTime n) = f n) {a b : Cache} (h : SameSkel a b)
    (i : Nat) : (getNode a i).map f = (getNode b i).map f := by
  have hi := h i
  cases ha : getNode a i with
  | none =>
    cases hb : getNode b i with
    | none => rfl
    | some n' => rw [ha, hb] at hi; simp at hi
  | some n =>
    cases hb : getNode b i with
    | none => rw [ha, hb] at hi; simp at hi
    | some n' =>
      rw [ha, hb] at hi
      simp only [Option.map_some'] at hi ⊢
      injection hi with hstrip
      rw [← hf n, ← hf n', hstrip]

/-- C9: _match is a pure walk.  For every cache and token list, _match
changes no node's ref_count, no node's children, no node's parent link, and
leaves the leaves set and the page pool untouched; every node off the matched
descent path is completely unchanged (so the only mutation is the access_time
of nodes on the matched path); and it returns the deepest matched node (the
root, id 0, when no block matched) together with the matched pages in descent
order, as computed by the pure reference walk pureTrieMatch over the starting
cache. -/
theorem c9_match_pure_walk (c : Cache) (tokens : List Nat) :
    (∀ i, (getNode (trieMatch c tokens).1 i).map (fun n => n.ref_count)
        = (getNode c i).map (fun n => n.ref_count)) ∧
    (∀ i, (getNode (trieMatch c tokens).1 i).map (fun n => n.children)
        = (getNode c i).map (fun n => n.children)) ∧
    (∀ i, (getNode (trieMatch c tokens).1 i).map (fun n => n.parent)
        = (getNode c i).map (fun n => n.parent)) ∧
    (trieMatch c tokens).1.leaves = c.leaves ∧
    (trieMatch c tokens).1.available_pages = c.available_pages ∧
    (∀ i, i ∉ (pureTrieMatch c tokens).2.2 →
      getNode (trieMatch c tokens).1 i = getNode c i) ∧
    (trieMatch c tokens).2.1 = (pureTrieMatch c tokens).1 ∧
    (trieMatch c tokens).2.2 = (pureTrieMatch c tokens).2.1 := by
  obtain ⟨s1, s2, s3, s4, s5, s6, s7⟩ :=
    matchLoop_master (sliceBlocks tokens 0 tokens.length c.tokens_per_page) c 0 []
  refine ⟨fun i => sameSkel_map (fun n => n.ref_count) (fun n => rfl) s1 i,
          fun i => sameSkel_map (fun n => n.children) (fun n => rfl) s1 i,
          fun i => sameSkel_map (fun n => n.parent) (fun n => rfl) s1 i,
          s2, s3, s5, s6, ?_⟩
  rw [show (trieMatch c tokens).2.2
      = (matchLoop c 0 (sliceBlocks tokens 0 tokens.length c.tokens_per_page) []).2.2
      from rfl, s7]
  simp [pureTrieMatch]

theorem listAdd_of_mem {l : List Nat} {x : Nat} (h : x ∈ l) :
    listAdd l x = l := by simp [listAdd, h]

theorem mem_listAdd (l : List Nat) (x : Nat) : x ∈ listAdd l x := by
  by_cases h : x ∈ l <;> simp [listAdd, h]

theorem listModify_comp (l : List α) (i : Nat) (f g : α → α) :
    listModify (listModify l i g) i f = listModify l i (fun x => f (g x)) := by
  induction l generalizing i with
  | nil => rfl
  | cons x xs ih =>
    cases i with
    | zero => rfl
    | succ i => simp [listModify, ih]

theorem listModify_id (l : List α) (i : Nat) (f : α → α)
    (hf : ∀ x, f x = x) : listModify l i f = l := by
  induction l generalizing i with
  | nil => rfl
  | cons x xs ih =>
    cases i with
    | zero => simp [listModify, hf]
    | succ i => simp [listModify, ih]

theorem bumpRef_bumpRef_cancel (c : Cache) (i : Nat) :
    bumpRef (bumpRef c i 1) i (-1) = c := by
  show modifyNode (modifyNode c i _) i _ = c
  unfold modifyNode
  rcases c with ⟨tpp, nodes, leaves, pool, now, stamps⟩
  simp only [listModify_comp]
  rw [listModify_id]
  intro n
  rcases n with ⟨tk, pg, ch, pa, rc, at0⟩
  simp

theorem sliceBlocks_nil {toks : List Nat} {start stop step : Nat}
    (h : stop ≤ start) : sliceBlocks toks start stop step = [] := by
  unfold sliceBlocks
  have h0 : stop - start = 0 := Nat.sub_eq_zero_of_le h
  rw [h0]
  cases step with
  | zero => simp
  | succ s => simp [Nat.div_eq_of_lt (by omega : s < s + 1)]

theorem sliceBlocks_length_bound (toks : List Nat) (start stop step : Nat)
    (hstep : 0 < step) :
    stop ≤ start + step * (sliceBlocks toks start stop step).length := by
  unfold sliceBlocks
  simp only [List.length_map, List.length_range]
  rcases le_or_lt stop start with h | h
  · omega
  · have hd := Nat.div_add_mod (stop - start + step - 1) step
    have hm := Nat.mod_lt (stop - start + step - 1) hstep
    omega

theorem bumpRef_leaves (c : Cache) (i : Nat) (d : Int) :
    (bumpRef c i d).leaves = c.leaves := rfl

theorem bumpRef_tpp (c : Cache) (i : Nat) (d : Int) :
    (bumpRef c i d).tokens_per_page = c.tokens_per_page := rfl

theorem create_child_tpp (c : Cache) (p : Nat) (b : List Nat) (g : Nat) :
    (create_child c p b g).1.tokens_per_page = c.tokens_per_page := by
  show (modifyNode _ _ _).tokens_per_page = _
  unfold modifyNode
  show (tickTime c).2.tokens_per_page = c.tokens_per_page
  exact tickTime_tpp c

theorem graftBlocks_tpp (l : List (List Nat × Nat)) :
    ∀ c cur, (graftBlocks c cur l).1.tokens_per_page = c.tokens_per_page := by
  induction l with
  | nil => intro c cur; rfl
  | cons x rest ih =>
    intro c cur
    rcases x with ⟨blk, pg⟩
    show (graftBlocks (create_child c cur blk pg).1
      (create_child c cur blk pg).2 rest).1.tokens_per_page = _
    rw [ih, create_child_tpp]

/-- publish_pages with a target already covered by cached_pages (and with
last_cached_node either the root or a current member of leaves) changes
nothing at all. -/
theorem publish_pages_noop (c : Cache) (a : Alloc) (k : Nat)
    (h1 : min a.tokens.length (k * c.tokens_per_page)
          ≤ a.cached_pages.length * c.tokens_per_page)
    (h2 : a.last_cached_node = 0 ∨ a.last_cached_node ∈ c.leaves) :
    publish_pages c a k = (c, a) := by
  have hsl : publishUncachedTokens c a k = [] := sliceBlocks_nil h1
  unfold publish_pages
  simp only [hsl, List.length_nil, List.take_zero, List.zip_nil_right,
    List.zip_nil_left, graftBlocks, List.append_nil, List.drop_zero]
  have hc2 : (if a.last_cached_node ≠ 0 then
      { c with leaves := listAdd c.leaves a.last_cached_node } else c) = c := by
    rcases h2 with h2 | h2
    · simp [h2]
    · by_cases hz : a.last_cached_node = 0
      · simp [hz]
      · simp [hz, listAdd_of_mem h2]
  simp only [hc2, bumpRef_bumpRef_cancel]

theorem publish_pages_post (c : Cache) (a : Alloc) (k : Nat)
    (hsuff : (publishUncachedTokens c a k).length
        ≤ a.newly_acquired_pages.length) :
    (publish_pages c a k).1.tokens_per_page = c.tokens_per_page ∧
    (publish_pages c a k).2.tokens = a.tokens ∧
    (publish_pages c a k).2.cached_pages.length
      = a.cached_pages.length + (publishUncachedTokens c a k).length ∧
    ((publish_pages c a k).2.last_cached_node = 0 ∨
      (publish_pages c a k).2.last_cached_node
        ∈ (publish_pages c a k).1.leaves) := by
  unfold publish_pages
  set sl := publishUncachedTokens c a k with hsl
  set g := graftBlocks c a.last_cached_node
    (sl.zip (a.newly_acquired_pages.take sl.length)) with hg
  simp only [bumpRef_leaves, bumpRef_tpp]
  refine ⟨?_, trivial, ?_, ?_⟩
  · by_cases hz : g.2 ≠ 0 <;> simp [hz, hg, graftBlocks_tpp]
  · simp only [List.length_append, List.length_take]
    omega
  · by_cases hz : g.2 = 0
    · left; exact hz
    · right; simp [hz, mem_listAdd]

/-- C5: publication is monotone and re-publication is a no-op.  For every
allocation with enough newly acquired pages to cover the first publish (true
of every allocation acquire_pages_for_tokens returns), publishing up to k1
pages and then publishing up to k2 ≤ k1 pages leaves the entire cache state
(trie nodes, children, leaves set, every ref_count, pool, clock) and every
Allocation field unchanged by the second call: the second call returns
exactly the state after the first. -/
theorem c5_publish_monotone (c : Cache) (a : Alloc) (k1 k2 : Nat)
    (hk : k2 ≤ k1) (htpp : 0 < c.tokens_per_page)
    (hsuff : (publishUncachedTokens c a k1).length
        ≤ a.newly_acquired_pages.length) :
    publish_pages (publish_pages c a k1).1 (publish_pages c a k1).2 k2
      = ((publish_pages c a k1).1, (publish_pages c a k1).2) := by
  obtain ⟨htp, htk, hlen, hlcn⟩ := publish_pages_post c a k1 hsuff
  apply publish_pages_noop
  · rw [htp, htk, hlen]
    have hb := sliceBlocks_length_bound a.tokens
      (a.cached_pages.length * c.tokens_per_page)
      (min a.tokens.length (k1 * c.tokens_per_page)) c.tokens_per_page htpp
    have hrw : publishUncachedTokens c a k1
        = sliceBlocks a.tokens (a.cached_pages.length * c.tokens_per_page)
            (min a.tokens.length (k1 * c.tokens_per_page))
            c.tokens_per_page := rfl
    rw [hrw]
    have hmono : min a.tokens.length (k2 * c.tokens_per_page)
        ≤ min a.tokens.length (k1 * c.tokens_per_page) :=
      min_le_min (le_refl _) (Nat.mul_le_mul_right _ hk)
    calc min a.tokens.length (k2 * c.tokens_per_page)
        ≤ min a.tokens.length (k1 * c.tokens_per_page) := hmono
      _ ≤ a.cached_pages.length * c.tokens_per_page
            + c.tokens_per_page * (sliceBlocks a.tokens
                (a.cached_pages.length * c.tokens_per_page)
                (min a.tokens.length (k1 * c.tokens_per_page))
                c.tokens_per_page).length := hb
      _ = (a.cached_pages.length + (sliceBlocks a.tokens
                (a.cached_pages.length * c.tokens_per_page)
                (min a.tokens.length (k1 * c.tokens_per_page))
                c.tokens_per_page).length) * c.tokens_per_page := by
            ring
  · exact hlcn

/-- Witness allocation for C5: the allocation produced by acquiring
[1,...,8] on a fresh cache with tokens_per_page 4. -/
def c5Sys : SysState := runOps (mkSys 4 [10, 20, 30] []) [.acq [1,2,3,4,5,6,7,8] 0]

def c5Alloc : Alloc := c5Sys.allocs.headI

theorem c5_publish_witness :
    (1 ≤ 2 ∧ 0 < c5Sys.cache.tokens_per_page ∧
      (publishUncachedTokens c5Sys.cache c5Alloc 2).length
        ≤ c5Alloc.newly_acquired_pages.length) ∧
    publish_pages (publish_pages c5Sys.cache c5Alloc 2).1
        (publish_pages c5Sys.cache c5Alloc 2).2 1
      = ((publish_pages c5Sys.cache c5Alloc 2).1,
         (publish_pages c5Sys.cache c5Alloc 2).2) :=
  ⟨⟨by decide, by decide, by decide⟩,
   c5_publish_monotone c5Sys.cache c5Alloc 2 1 (by decide) (by decide) (by decide)⟩

/-- The fields of a node that eviction never changes. -/
def nodeCore (n : TrieNode) : List Nat × Nat × Int × Nat :=
  (n.tokens, n.page, n.ref_count, n.access_time)

/-- State relation: d equals c except possibly in children / parent fields of
nodes, the leaves set, and nothing else. -/
def CoreFrame (d c : Cache) : Prop :=
  (∀ i, (getNode d i).map nodeCore = (getNode c i).map nodeCore) ∧
  d.available_pages = c.available_pages ∧
  d.tokens_per_page = c.tokens_per_page ∧
  d.now = c.now ∧ d.stamps = c.stamps ∧ d.nodes.length = c.nodes.length

theorem coreFrame_refl (c : Cache) : CoreFrame c c :=
  ⟨fun _ => rfl, rfl, rfl, rfl, rfl, rfl⟩

theorem coreFrame_trans {a b c : Cache} (h1 : CoreFrame a b)
    (h2 : CoreFrame b c) : CoreFrame a c :=
  ⟨fun i => (h1.1 i).trans (h2.1 i), h1.2.1.trans h2.2.1,
   h1.2.2.1.trans h2.2.2.1, h1.2.2.2.1.trans h2.2.2.2.1,
   h1.2.2.2.2.1.trans h2.2.2.2.2.1, h1.2.2.2.2.2.trans h2.2.2.2.2.2⟩

theorem getNode_proj_modifyNode {α : Type} (proj : TrieNode → α)
    (f : TrieNode → TrieNode) (hp : ∀ n, proj (f n) = proj n)
    (c : Cache) (j i : Nat) :
    (getNode (modifyNode c j f) i).map proj = (getNode c i).map proj := by
  rw [getNode_modifyNode]
  by_cases hij : i = j
  · subst hij
    cases getNode c i <;> simp [hp]
  · simp [hij]

theorem coreFrame_modify (c : Cache) (j : Nat) (f : TrieNode → TrieNode)
    (hf : ∀ n, nodeCore (f n) = nodeCore n) :
    CoreFrame (modifyNode c j f) c :=
  ⟨fun i => getNode_proj_modifyNode nodeCore f hf c j i, rfl, rfl, rfl, rfl,
   by simp [modifyNode, listModify_length]⟩

theorem coreFrame_setLeaves (c : Cache) (l : List Nat) :
    CoreFrame { c with leaves := l } c :=
  ⟨fun _ => rfl, rfl, rfl, rfl, rfl, rfl⟩

theorem popMin_error_cases (l : List (Nat × Nat)) :
    ∀ e, popMin l = .error e → e = .keyErr ∨ e = .typeErr := by
  induction l with
  | nil =>
    intro e he
    rw [popMin] at he
    injection he with h
    exact Or.inl h.symm
  | cons a rest ih =>
    intro e he
    cases rest with
    | nil => rw [popMin] at he; cases he
    | cons b rest2 =>
      rw [popMin] at he
      cases hpm : popMin (b :: rest2) with
      | error er =>
        rw [hpm] at he
        injection he with h
        subst h
        exact ih _ hpm
      | ok pr =>
        rw [hpm] at he
        rcases pr with ⟨m, rest1⟩
        simp only at he
        cases hlt : entryLt a m with
        | error er =>
          rw [hlt] at he
          injection he with h
          subst h
          unfold entryLt at hlt
          by_cases h1 : a.1 = m.1
          · by_cases h2 : a.2 = m.2
            · simp [h1, h2] at hlt
            · rw [if_pos h1, if_neg h2] at hlt
              injection hlt with h
              exact Or.inr h.symm
          · rw [if_neg h1] at hlt
            cases hlt
        | ok bv =>
          rw [hlt] at he
          cases bv <;> cases he

/-- The eviction loop only changes children / parent fields, the leaves set
(and, through the caller, the pool): every node keeps its tokens, page,
ref_count and access_time, the arena length, pool, clock and configuration
are unchanged, and the loop never fails with CacheAllocationFailure. -/
theorem evictLoop_frame (fuel : Nat) :
    ∀ c heap acc m,
      CoreFrame (evictLoop fuel c heap acc m).2 c ∧
      (evictLoop fuel c heap acc m).1 ≠ .error .allocFailure := by
  induction fuel with
  | zero =>
    intro c heap acc m
    rw [evictLoop]
    exact ⟨coreFrame_refl c, by simp⟩
  | succ fuel ih =>
    intro c heap acc m
    rw [evictLoop]
    by_cases hguard : heap.isEmpty = true ∨ ¬((acc.length : Int) < m)
    · rw [if_pos hguard]
      exact ⟨coreFrame_refl c, by simp⟩
    · rw [if_neg hguard]
      cases hpm : popMin heap with
      | error e =>
        dsimp only
        refine ⟨coreFrame_refl c, ?_⟩
        intro hcontra
        injection hcontra with h
        rcases popMin_error_cases heap e hpm with h2 | h2 <;> rw [h2] at h <;>
          cases h
      | ok pr =>
        rcases pr with ⟨⟨t, i⟩, heap1⟩
        dsimp only
        cases hgn : getNode c i with
        | none =>
          dsimp only
          exact ⟨coreFrame_refl c, by simp⟩
        | some n =>
          dsimp only
          cases hp : n.parent with
          | none =>
            dsimp only
            have hc2 : CoreFrame (modifyNode c i
                (fun mm => { mm with parent := none })) c :=
              coreFrame_modify c i _ (fun nn => rfl)
            by_cases hmem : i ∈ (modifyNode c i
                (fun mm => { mm with parent := none })).leaves
            · rw [if_pos hmem]
              refine ⟨coreFrame_trans (ih _ _ _ _).1
                (coreFrame_trans (coreFrame_setLeaves _ _) hc2), (ih _ _ _ _).2⟩
            · rw [if_neg hmem]
              exact ⟨hc2, by simp⟩
          | some p =>
            dsimp only
            have hc1 : CoreFrame (modifyNode c p
                (fun pn => { pn with
                  children := dictErase pn.children n.tokens })) c :=
              coreFrame_modify c p _ (fun nn => rfl)
            set c1 := modifyNode c p
              (fun pn => { pn with children := dictErase pn.children n.tokens })
              with hc1def
            have hc2 : CoreFrame (modifyNode c1 i
                (fun mm => { mm with parent := none })) c :=
              coreFrame_trans (coreFrame_modify c1 i _ (fun nn => rfl)) hc1
            set c2 := modifyNode c1 i (fun mm => { mm with parent := none })
              with hc2def
            by_cases hmem : i ∈ c2.leaves
            · rw [if_pos hmem]
              have hc3 : CoreFrame
                  { c2 with leaves := c2.leaves.filter (fun x => x ≠ i) } c :=
                coreFrame_trans (coreFrame_setLeaves _ _) hc2
              set c3 := { c2 with leaves := c2.leaves.filter (fun x => x ≠ i) }
                with hc3def
              cases hgp : getNode c3 p with
              | none =>
                dsimp only
                exact ⟨hc3, by simp⟩
              | some pn =>
                dsimp only
                by_cases hcond : p ≠ 0 ∧ pn.children = []
                · rw [if_pos hcond]
                  have hc4 : CoreFrame
                      { c3 with leaves := listAdd c3.leaves p } c :=
                    coreFrame_trans (coreFrame_setLeaves _ _) hc3
                  by_cases href : pn.ref_count = 0
                  · rw [if_pos href]
                    exact ⟨coreFrame_trans (ih _ _ _ _).1 hc4, (ih _ _ _ _).2⟩
                  · rw [if_neg href]
                    exact ⟨coreFrame_trans (ih _ _ _ _).1 hc4, (ih _ _ _ _).2⟩
                · rw [if_neg hcond]
                  exact ⟨coreFrame_trans (ih _ _ _ _).1 hc3, (ih _ _ _ _).2⟩
            · rw [if_neg hmem]
              exact ⟨hc2, by simp⟩

theorem poolFreePages_getNode (c : Cache) (pgs : List Nat) (i : Nat) :
    getNode (poolFreePages c pgs) i = getNode c i := rfl

/-- _evict_pages preserves every node's tokens, page, ref_count and access
time, and never raises CacheAllocationFailure. -/
theorem evict_pages_frame (c : Cache) (m : Int) :
    (∀ i, (getNode (evict_pages c m).2 i).map nodeCore
        = (getNode c i).map nodeCore) ∧
    (evict_pages c m).1 ≠ .error .allocFailure := by
  unfold evict_pages
  dsimp only
  obtain ⟨hf, hne⟩ := evictLoop_frame
    (c.nodes.length + (initialHeap c).length + 2) c (initialHeap c) [] m
  rcases hev : evictLoop (c.nodes.length + (initialHeap c).length + 2) c
    (initialHeap c) [] m with ⟨r, c1⟩
  rw [hev] at hf hne
  cases r with
  | error e =>
    dsimp only
    refine ⟨fun i => hf.1 i, ?_⟩
    simpa using hne
  | ok popped =>
    dsimp only
    refine ⟨?_, by simp⟩
    intro i
    by_cases hpe : popped.isEmpty <;>
      simp only [hpe, if_true, if_false, Bool.false_eq_true, ite_true,
        ite_false, poolFreePages_getNode] <;>
      exact hf.1 i

theorem map_proj_of_map_core {a b : Option TrieNode} {α : Type}
    (f : TrieNode → α) (hf : ∀ n m, nodeCore n = nodeCore m → f n = f m)
    (h : a.map nodeCore = b.map nodeCore) : a.map f = b.map f := by
  cases a with
  | none => cases b with
    | none => rfl
    | some m => simp at h
  | some n => cases b with
    | none => simp at h
    | some m =>
      simp only [Option.map_some'] at h ⊢
      injection h with h2
      rw [hf n m h2]

/-- The state after the match-and-pin phase of acquire_pages_for_tokens. -/
def acquirePinned (c : Cache) (tokens : List Nat) : Cache :=
  bumpRef (trieMatch c tokens).1 (trieMatch c tokens).2.1 1

/-- The node pinned by acquire_pages_for_tokens (deepest match). -/
def acquireMatched (c : Cache) (tokens : List Nat) : Nat :=
  (trieMatch c tokens).2.1

/-- n_empty_pages as computed by acquire_pages_for_tokens. -/
def acquireNeeded (c : Cache) (tokens : List Nat) (extra : Int) : Int :=
  ceilDivInt ((tokens.length : Int)
    - (((trieMatch c tokens).2.2.length * c.tokens_per_page : Nat) : Int)
    + extra) c.tokens_per_page

/-- The result of the eviction attempt inside acquire_pages_for_tokens. -/
def acquireEvicted (c : Cache) (tokens : List Nat) (extra : Int) :
    (Except PyErr Nat) × Cache :=
  evict_pages (acquirePinned c tokens)
    (acquireNeeded c tokens extra
      - ((acquirePinned c tokens).available_pages.length : Int))

/-- C6: acquire_pages_for_tokens raises CacheAllocationFailure exactly when
the first pool request returns none, the eviction attempt completes, and the
second pool request still returns none; on that failing path no Allocation is
returned and the matched node's ref_count remains incremented (the pin is not
undone before raising). -/
theorem c6_alloc_failure (c : Cache) (tokens : List Nat) (extra : Int) :
    ((acquire_pages_for_tokens c tokens extra).1 = .error .allocFailure ↔
      (poolAcquireFreePages (acquirePinned c tokens)
          (acquireNeeded c tokens extra) = none ∧
       (∃ k, (acquireEvicted c tokens extra).1 = .ok k) ∧
       poolAcquireFreePages (acquireEvicted c tokens extra).2
         (acquireNeeded c tokens extra) = none)) ∧
    ((acquire_pages_for_tokens c tokens extra).1 = .error .allocFailure →
      (∀ a, (acquire_pages_for_tokens c tokens extra).1 ≠ .ok a) ∧
      (getNode (acquire_pages_for_tokens c tokens extra).2
          (acquireMatched c tokens)).map (fun n => n.ref_count)
        = (getNode c (acquireMatched c tokens)).map
            (fun n => n.ref_count + 1)) := by
  obtain ⟨hevframe, hevne⟩ := evict_pages_frame (acquirePinned c tokens)
    (acquireNeeded c tokens extra
      - ((acquirePinned c tokens).available_pages.length : Int))
  obtain ⟨mskel, _⟩ := matchLoop_master
    (sliceBlocks tokens 0 tokens.length c.tokens_per_page) c 0 []
  unfold acquire_pages_for_tokens
  unfold acquirePinned acquireNeeded at hevframe hevne
  unfold acquireEvicted acquireMatched acquirePinned acquireNeeded
  dsimp only
  cases hfirst : poolAcquireFreePages
      (bumpRef (trieMatch c tokens).1 (trieMatch c tokens).2.1 1)
      (ceilDivInt ((tokens.length : Int)
        - (((trieMatch c tokens).2.2.length * c.tokens_per_page : Nat) : Int)
        + extra) c.tokens_per_page) with
  | some pr =>
    obtain ⟨pgs, c3⟩ := pr
    dsimp only
    refine ⟨⟨(fun h => by cases h), (fun hr => ?_)⟩, (fun h => by cases h)⟩
    rcases hr with ⟨h1, _, _⟩
    cases h1
  | none =>
    dsimp only
    rcases hev : evict_pages
        (bumpRef (trieMatch c tokens).1 (trieMatch c tokens).2.1 1)
        (ceilDivInt ((tokens.length : Int)
          - (((trieMatch c tokens).2.2.length * c.tokens_per_page : Nat) : Int)
          + extra) c.tokens_per_page
          - ((bumpRef (trieMatch c tokens).1 (trieMatch c tokens).2.1
                1).available_pages.length : Int)) with ⟨r, c3⟩
    rw [hev] at hevframe hevne
    cases r with
    | error e =>
      dsimp only at hevne ⊢
      refine ⟨⟨(fun h => by injection h with h2; subst h2; exact (hevne rfl).elim),
        (fun hr => ?_)⟩,
        (fun h => by injection h with h2; subst h2; exact (hevne rfl).elim)⟩
      rcases hr with ⟨_, ⟨k, h2⟩, _⟩
      cases h2
    | ok k0 =>
      dsimp only at hevframe ⊢
      cases hsecond : poolAcquireFreePages c3
          (ceilDivInt ((tokens.length : Int)
            - (((trieMatch c tokens).2.2.length * c.tokens_per_page : Nat) : Int)
            + extra) c.tokens_per_page) with
      | some pr2 =>
        obtain ⟨pgs2, c4⟩ := pr2
        dsimp only
        refine ⟨⟨(fun h => by cases h), (fun hr => ?_)⟩, (fun h => by cases h)⟩
        rcases hr with ⟨_, _, h3⟩
        cases h3
      | none =>
        dsimp only
        refine ⟨⟨(fun _ => ⟨rfl, ⟨k0, rfl⟩, rfl⟩), (fun _ => rfl)⟩,
          (fun _ => ?_)⟩
        refine ⟨(fun a hcontra => by cases hcontra), ?_⟩
        have step1 : (getNode c3 ((trieMatch c tokens).2.1)).map
            (fun n => n.ref_count)
            = (getNode (bumpRef (trieMatch c tokens).1
                (trieMatch c tokens).2.1 1) ((trieMatch c tokens).2.1)).map
              (fun n => n.ref_count) :=
          map_proj_of_map_core _ (fun n m hnm => by
            have h5 : n.ref_count = m.ref_count :=
              congrArg (fun x => x.2.2.1) hnm
            rw [h5]) (hevframe _)
        rw [step1]
        show (getNode (modifyNode (trieMatch c tokens).1
            ((trieMatch c tokens).2.1) _) ((trieMatch c tokens).2.1)).map
            (fun n => n.ref_count) = _
        rw [getNode_modifyNode]
        simp only [if_true, eq_self_iff_true, Option.map_map]
        have hfin := sameSkel_map (fun n => n.ref_count + 1) (fun n => rfl)
          mskel ((trieMatch c tokens).2.1)
        simpa [Function.comp] using hfin

/-- Witness for C6: on a fresh cache with an empty page pool, acquiring one
token raises CacheAllocationFailure and leaves the root's ref_count pinned at
one more than before. -/
theorem c6_alloc_failure_witness :
    ((acquire_pages_for_tokens (mkCache 1 [] []) [7] 0).1
        = .error .allocFailure) ∧
    ((getNode (acquire_pages_for_tokens (mkCache 1 [] []) [7] 0).2
        (acquireMatched (mkCache 1 [] []) [7])).map (fun n => n.ref_count)
      = (getNode (mkCache 1 [] []) (acquireMatched (mkCache 1 [] []) [7])).map
          (fun n => n.ref_count + 1)) :=
  ⟨by decide, ((c6_alloc_failure (mkCache 1 [] []) [7] 0).2 (by decide)).2⟩

/-! Infrastructure for the whole-trace refcount invariant (C3). -/

theorem dictGet_mem {l : List (List Nat × Nat)} {k : List Nat} {v : Nat}
    (h : dictGet l k = some v) : (k, v) ∈ l := by
  induction l with
  | nil => cases h
  | cons e rest ih =>
    rcases e with ⟨k0, v0⟩
    rw [dictGet] at h
    by_cases hk : k0 = k
    · rw [if_pos hk] at h
      injection h with h2
      subst hk; subst h2
      exact List.mem_cons_self _ _
    · rw [if_neg hk] at h
      exact List.mem_cons_of_mem _ (ih h)

theorem dictErase_subset {l : List (List Nat × Nat)} {k : List Nat}
    {e : List Nat × Nat} (h : e ∈ dictErase l k) : e ∈ l := by
  induction l with
  | nil => cases h
  | cons e0 rest ih =>
    rcases e0 with ⟨k0, v0⟩
    rw [dictErase] at h
    by_cases hk : k0 = k
    · rw [if_pos hk] at h
      exact List.mem_cons_of_mem _ h
    · rw [if_neg hk] at h
      rcases List.mem_cons.mp h with h2 | h2
      · exact h2 ▸ List.mem_cons_self _ _
      · exact List.mem_cons_of_mem _ (ih h2)

theorem dictInsert_mem {l : List (List Nat × Nat)} {k : List Nat} {v : Nat}
    {e : List Nat × Nat} (h : e ∈ dictInsert l k v) :
    e ∈ l ∨ e = (k, v) := by
  induction l with
  | nil =>
    rw [dictInsert] at h
    rcases List.mem_cons.mp h with h2 | h2
    · exact Or.inr h2
    · cases h2
  | cons e0 rest ih =>
    rcases e0 with ⟨k0, v0⟩
    rw [dictInsert] at h
    by_cases hk : k0 = k
    · rw [if_pos hk] at h
      rcases List.mem_cons.mp h with h2 | h2
      · exact Or.inr (by rw [h2, hk])
      · exact Or.inl (List.mem_cons_of_mem _ h2)
    · rw [if_neg hk] at h
      rcases List.mem_cons.mp h with h2 | h2
      · exact Or.inl (h2 ▸ List.mem_cons_self _ _)
      · rcases ih h2 with h3 | h3
        · exact Or.inl (List.mem_cons_of_mem _ h3)
        · exact Or.inr h3

theorem list_split_of_get? {α : Type} {l : List α} {i : Nat} {a : α}
    (h : l.get? i = some a) :
    ∃ l1 l2, l = l1 ++ a :: l2 ∧ l1.length = i ∧
      ∀ b, l.set i b = l1 ++ b :: l2 := by
  induction l generalizing i with
  | nil => cases h
  | cons x xs ih =>
    cases i with
    | zero =>
      injection h with h2
      exact ⟨[], xs, by rw [h2]; rfl, rfl, fun b => rfl⟩
    | succ i =>
      obtain ⟨l1, l2, he, hl, hs⟩ := ih h
      exact ⟨x :: l1, l2, by rw [he]; rfl, by simp [hl],
        fun b => by simp [List.set, hs b]⟩

theorem sameSkel_length {d c : Cache} (h : SameSkel d c) :
    d.nodes.length = c.nodes.length := by
  by_contra hne
  rcases Nat.lt_or_ge d.nodes.length c.nodes.length with hlt | hge
  · have h1 : getNode d d.nodes.length = none := by
      simp [getNode, List.get?_eq_none]
    have h2 : getNode c d.nodes.length ≠ none := by
      simp [getNode, List.get?_eq_none]
      omega
    have := h d.nodes.length
    rw [h1] at this
    cases hgc : getNode c d.nodes.length with
    | none => exact h2 hgc
    | some n => rw [hgc] at this; simp at this
  · have hlt2 : c.nodes.length < d.nodes.length := by omega
    have h1 : getNode c c.nodes.length = none := by
      simp [getNode, List.get?_eq_none]
    have h2 : getNode d c.nodes.length ≠ none := by
      simp [getNode, List.get?_eq_none]
      omega
    have := h c.nodes.length
    rw [h1] at this
    cases hgd : getNode d c.nodes.length with
    | none => exact h2 hgd
    | some n => rw [hgd] at this; simp at this

/-- All children ids point inside the arena. -/
def ChildrenValid (c : Cache) : Prop :=
  ∀ i nn, getNode c i = some nn → ∀ e ∈ nn.children,
    e.2 < c.nodes.length

/-- Well-formedness needed to run operations: a non-empty arena, allocation
pointers inside the arena, child ids inside the arena. -/
def ValidState (s : SysState) : Prop :=
  0 < s.cache.nodes.length ∧
  (∀ a ∈ s.allocs, a.last_cached_node < s.cache.nodes.length) ∧
  ChildrenValid s.cache

/-- The pointwise refcount invariant: every node's ref_count equals the
number of live allocations whose last_cached_node is that node. -/
def RefCorrect (s : SysState) : Prop :=
  ∀ i n, getNode s.cache i = some n → n.ref_count = (countLive s i : Int)

theorem childrenValid_of_sameSkel {d c : Cache} (hs : SameSkel d c)
    (hv : ChildrenValid c) : ChildrenValid d := by
  intro i nn hget e he
  have hi := hs i
  rw [hget] at hi
  cases hgc : getNode c i with
  | none => rw [hgc] at hi; simp at hi
  | some m =>
    rw [hgc] at hi
    simp only [Option.map_some'] at hi
    injection hi with h2
    have hch : nn.children = m.children := by
      simpa [stripTime] using congrArg TrieNode.children h2
    rw [sameSkel_length hs]
    exact hv i m hgc e (hch ▸ he)

theorem touch_sameSkel (c : Cache) (j : Nat) :
    SameSkel (modifyNode (tickTime c).2 j
      (fun m => { m with access_time := (tickTime c).1 })) c := by
  intro i
  rw [getNode_modifyNode]
  by_cases hij : i = j
  · subst hij
    rw [tickTime_getNode]
    cases getNode c i <;> simp [stripTime]
  · simp [hij, tickTime_getNode]

theorem matchLoop_lt (blocks : List (List Nat)) :
    ∀ c cur acc, cur < c.nodes.length → ChildrenValid c →
      (matchLoop c cur blocks acc).2.1 < c.nodes.length := by
  induction blocks with
  | nil => intro c cur acc hcur _; exact hcur
  | cons b rest ih =>
    intro c cur acc hcur hv
    cases hc : getNode c cur with
    | none => simp only [matchLoop, hc]; exact hcur
    | some n =>
      cases hg : dictGet n.children b with
      | none => simp only [matchLoop, hc, hg]; exact hcur
      | some j =>
        have hj : j < c.nodes.length := hv cur n hc (b, j) (dictGet_mem hg)
        have hskel2 := touch_sameSkel c j
        have hlen2 := sameSkel_length hskel2
        cases hj2 : getNode (modifyNode (tickTime c).2 j
            (fun m => { m with access_time := (tickTime c).1 })) j with
        | none => simp only [matchLoop, hc, hg, hj2]; exact hj
        | some m =>
          have := ih (modifyNode (tickTime c).2 j
              (fun mm => { mm with access_time := (tickTime c).1 })) j
              (m.page :: acc) (by omega)
              (childrenValid_of_sameSkel hskel2 hv)
          simp only [matchLoop, hc, hg, hj2]
          omega

/-- The node built by create_child. -/
def freshNode (blk : List Nat) (pg : Nat) (p : Nat) (t : Nat) : TrieNode :=
  { tokens := blk, page := pg, children := [], parent := some p,
    ref_count := 0, access_time := t }

/-- The augmented arena inside create_child, before the parent update. -/
theorem create_child_unfold (c : Cache) (p : Nat) (blk : List Nat) (pg : Nat) :
    create_child c p blk pg
      = (modifyNode
          { (tickTime c).2 with
            nodes := (tickTime c).2.nodes
              ++ [freshNode blk pg p (tickTime c).1] } p
          (fun n =>
            { n with children :=
                dictInsert n.children blk (tickTime c).2.nodes.length }),
         (tickTime c).2.nodes.length) := rfl

theorem create_child_len (c : Cache) (p : Nat) (blk : List Nat) (pg : Nat) :
    (create_child c p blk pg).1.nodes.length = c.nodes.length + 1 := by
  rw [create_child_unfold]
  show (listModify _ _ _).length = _
  rw [listModify_length]
  simp [tickTime_nodes]

theorem create_child_newId (c : Cache) (p : Nat) (blk : List Nat) (pg : Nat) :
    (create_child c p blk pg).2 = c.nodes.length := by
  rw [create_child_unfold]
  show (tickTime c).2.nodes.length = _
  rw [tickTime_nodes]

theorem getNode_append (c : Cache) (x : TrieNode) (i : Nat) :
    getNode { c with nodes := c.nodes ++ [x] } i
      = (if i < c.nodes.length then getNode c i
         else if i = c.nodes.length then some x else none) := by
  show (c.nodes ++ [x]).get? i = _
  by_cases hlt : i < c.nodes.length
  · rw [if_pos hlt, List.get?_append hlt]
    rfl
  · rw [if_neg hlt]
    by_cases heq : i = c.nodes.length
    · rw [if_pos heq, heq]
      exact List.get?_concat_length _ _
    · rw [if_neg heq, List.get?_eq_none]
      simp only [List.length_append, List.length_cons, List.length_nil]
      omega

theorem create_child_getNode_old (c : Cache) (p : Nat) (blk : List Nat)
    (pg : Nat) (i : Nat) (hip : i ≠ p) (hlt : i < c.nodes.length) :
    getNode (create_child c p blk pg).1 i = getNode c i := by
  rw [create_child_unfold]
  show getNode (modifyNode _ _ _) i = _
  rw [getNode_modifyNode, if_neg hip, getNode_append, tickTime_nodes,
    tickTime_getNode, if_pos hlt]

theorem create_child_getNode_p (c : Cache) (p : Nat) (blk : List Nat)
    (pg : Nat) (hp : p < c.nodes.length) :
    getNode (create_child c p blk pg).1 p
      = (getNode c p).map (fun n =>
          { n with children := dictInsert n.children blk c.nodes.length }) := by
  rw [create_child_unfold]
  show getNode (modifyNode _ _ _) p = _
  rw [getNode_modifyNode, if_pos rfl, getNode_append, tickTime_nodes,
    tickTime_getNode, if_pos hp]

theorem create_child_getNode_new (c : Cache) (p : Nat) (blk : List Nat)
    (pg : Nat) (hp : p < c.nodes.length) :
    getNode (create_child c p blk pg).1 c.nodes.length
      = some (freshNode blk pg p (tickTime c).1) := by
  rw [create_child_unfold]
  show getNode (modifyNode _ _ _) c.nodes.length = _
  rw [getNode_modifyNode, if_neg (by omega : c.nodes.length ≠ p),
    getNode_append, tickTime_nodes, tickTime_getNode,
    if_neg (by omega : ¬ c.nodes.length < c.nodes.length), if_pos rfl]

theorem create_child_getNode_out (c : Cache) (p : Nat) (blk : List Nat)
    (pg : Nat) (i : Nat) (hp : p < c.nodes.length)
    (hi : c.nodes.length + 1 ≤ i) :
    getNode (create_child c p blk pg).1 i = none := by
  rw [create_child_unfold]
  show getNode (modifyNode _ _ _) i = _
  rw [getNode_modifyNode, if_neg (by omega : i ≠ p), getNode_append,
    tickTime_nodes, tickTime_getNode,
    if_neg (by omega : ¬ i < c.nodes.length),
    if_neg (by omega : ¬ i = c.nodes.length)]

theorem create_child_leaves (c : Cache) (p : Nat) (blk : List Nat)
    (pg : Nat) : (create_child c p blk pg).1.leaves = c.leaves := by
  rw [create_child_unfold]
  show ({ (tickTime c).2 with nodes := _ } : Cache).leaves = _
  exact tickTime_leaves c

theorem getNode_none_of_ge {c : Cache} {i : Nat}
    (h : c.nodes.length ≤ i) : getNode c i = none := by
  simp [getNode, List.get?_eq_none, h]

theorem graftBlocks_spec (pairs : List (List Nat × Nat)) :
    ∀ c cur, cur < c.nodes.length →
      (graftBlocks c cur pairs).1.nodes.length
          = c.nodes.length + pairs.length ∧
      (∀ i, i < c.nodes.length →
        (getNode (graftBlocks c cur pairs).1 i).map (fun n => n.ref_count)
          = (getNode c i).map (fun n => n.ref_count)) ∧
      (∀ i nn, c.nodes.length ≤ i →
        getNode (graftBlocks c cur pairs).1 i = some nn →
          nn.ref_count = 0) ∧
      (graftBlocks c cur pairs).2 < (graftBlocks c cur pairs).1.nodes.length ∧
      (ChildrenValid c → ChildrenValid (graftBlocks c cur pairs).1) ∧
      (graftBlocks c cur pairs).1.leaves = c.leaves := by
  induction pairs with
  | nil =>
    intro c cur hcur
    refine ⟨by simp [graftBlocks], fun i _ => rfl, ?_, hcur, fun hv => hv, rfl⟩
    intro i nn hge hsome
    rw [show (graftBlocks c cur []).1 = c from rfl] at hsome
    rw [getNode_none_of_ge hge] at hsome
    cases hsome
  | cons pr rest ih =>
    intro c cur hcur
    rcases pr with ⟨blk, pg⟩
    have hstep : graftBlocks c cur ((blk, pg) :: rest)
        = graftBlocks (create_child c cur blk pg).1
            (create_child c cur blk pg).2 rest := rfl
    have hlen1 := create_child_len c cur blk pg
    have hnew := create_child_newId c cur blk pg
    have hcur1 : (create_child c cur blk pg).2
        < (create_child c cur blk pg).1.nodes.length := by omega
    obtain ⟨ihlen, ihold, ihnew, ihend, ihcv, ihlv⟩ :=
      ih (create_child c cur blk pg).1 (create_child c cur blk pg).2 hcur1
    have hrefs1 : ∀ i, i < c.nodes.length →
        (getNode (create_child c cur blk pg).1 i).map (fun n => n.ref_count)
          = (getNode c i).map (fun n => n.ref_count) := by
      intro i hi
      by_cases hip : i = cur
      · rw [hip, create_child_getNode_p c cur blk pg hcur]
        cases getNode c cur <;> simp
      · rw [create_child_getNode_old c cur blk pg i hip hi]
    refine ⟨by rw [hstep, ihlen, hlen1]; simp; omega, ?_, ?_, ?_, ?_, ?_⟩
    · intro i hi
      rw [hstep, ihold i (by omega), hrefs1 i hi]
    · intro i nn hge hsome
      rw [hstep] at hsome
      by_cases hieq : i = c.nodes.length
      · have h2 := ihold i (by omega)
        rw [hsome, hieq, create_child_getNode_new c cur blk pg hcur] at h2
        simp [freshNode] at h2
        exact h2
      · exact ihnew i nn (by omega) hsome
    · rw [hstep]; exact ihend
    · intro hv
      rw [hstep]
      apply ihcv
      intro i nn hsome e he
      rw [hlen1]
      by_cases hip : i = cur
      · rw [hip, create_child_getNode_p c cur blk pg hcur] at hsome
        cases hgc : getNode c cur with
        | none => rw [hgc] at hsome; cases hsome
        | some m =>
          rw [hgc] at hsome
          simp only [Option.map_some'] at hsome
          injection hsome with h2
          subst h2
          have he2 : e ∈ dictInsert m.children blk c.nodes.length := he
          rcases dictInsert_mem he2 with h3 | h3
          · have := hv cur m hgc e h3
            omega
          · rw [h3]
            omega
      · by_cases hlt : i < c.nodes.length
        · rw [create_child_getNode_old c cur blk pg i hip hlt] at hsome
          have := hv i nn hsome e he
          omega
        · by_cases hieq : i = c.nodes.length
          · rw [hieq, create_child_getNode_new c cur blk pg hcur] at hsome
            injection hsome with h2
            subst h2
            cases he
          · rw [create_child_getNode_out c cur blk pg i hcur (by omega)]
              at hsome
            cases hsome
    · rw [hstep, ihlv, create_child_leaves]

theorem childrenValid_modify (c : Cache) (j : Nat) (f : TrieNode → TrieNode)
    (hf : ∀ n e, e ∈ (f n).children → e ∈ n.children)
    (h : ChildrenValid c) : ChildrenValid (modifyNode c j f) := by
  intro i nn hget e he
  rw [getNode_modifyNode] at hget
  have hlen : (modifyNode c j f).nodes.length = c.nodes.length := by
    simp [modifyNode, listModify_length]
  rw [hlen]
  by_cases hij : i = j
  · rw [if_pos hij] at hget
    cases hgc : getNode c i with
    | none => rw [hgc] at hget; cases hget
    | some m =>
      rw [hgc] at hget
      simp only [Option.map_some'] at hget
      injection hget with h2
      subst h2
      exact h i m hgc e (hf m e he)
  · rw [if_neg hij] at hget
    exact h i nn hget e he

theorem childrenValid_setLeaves (c : Cache) (l : List Nat)
    (h : ChildrenValid c) : ChildrenValid { c with leaves := l } :=
  fun i nn hget e he => h i nn hget e he

/-- The eviction loop never enlarges any node's children mapping, so child
ids stay inside the arena. -/
theorem evictLoop_childrenValid (fuel : Nat) :
    ∀ c heap acc m, ChildrenValid c →
      ChildrenValid (evictLoop fuel c heap acc m).2 := by
  induction fuel with
  | zero =>
    intro c heap acc m hv
    rw [evictLoop]
    exact hv
  | succ fuel ih =>
    intro c heap acc m hv
    rw [evictLoop]
    by_cases hguard : heap.isEmpty = true ∨ ¬((acc.length : Int) < m)
    · rw [if_pos hguard]; exact hv
    · rw [if_neg hguard]
      cases hpm : popMin heap with
      | error e => exact hv
      | ok pr =>
        rcases pr with ⟨⟨t, i⟩, heap1⟩
        dsimp only
        cases hgn : getNode c i with
        | none => exact hv
        | some n =>
          dsimp only
          cases hp : n.parent with
          | none =>
            dsimp only
            have hv2 : ChildrenValid (modifyNode c i
                (fun mm => { mm with parent := none })) :=
              childrenValid_modify c i _ (fun nn e he => he) hv
            by_cases hmem : i ∈ (modifyNode c i
                (fun mm => { mm with parent := none })).leaves
            · rw [if_pos hmem]
              exact ih _ _ _ _ (childrenValid_setLeaves _ _ hv2)
            · rw [if_neg hmem]
              exact hv2
          | some p =>
            dsimp only
            have hv1 : ChildrenValid (modifyNode c p
                (fun pn => { pn with
                  children := dictErase pn.children n.tokens })) :=
              childrenValid_modify c p _
                (fun nn e he => dictErase_subset he) hv
            set c1 := modifyNode c p
              (fun pn => { pn with children := dictErase pn.children n.tokens })
            have hv2 : ChildrenValid (modifyNode c1 i
                (fun mm => { mm with parent := none })) :=
              childrenValid_modify c1 i _ (fun nn e he => he) hv1
            set c2 := modifyNode c1 i (fun mm => { mm with parent := none })
            by_cases hmem : i ∈ c2.leaves
            · rw [if_pos hmem]
              have hv3 : ChildrenValid
                  { c2 with leaves := c2.leaves.filter (fun x => x ≠ i) } :=
                childrenValid_setLeaves _ _ hv2
              set c3 := { c2 with leaves := c2.leaves.filter (fun x => x ≠ i) }
              cases hgp : getNode c3 p with
              | none => exact hv3
              | some pn =>
                dsimp only
                by_cases hcond : p ≠ 0 ∧ pn.children = []
                · rw [if_pos hcond]
                  have hv4 : ChildrenValid
                      { c3 with leaves := listAdd c3.leaves p } :=
                    childrenValid_setLeaves _ _ hv3
                  by_cases href : pn.ref_count = 0
                  · rw [if_pos href]
                    exact ih _ _ _ _ hv4
                  · rw [if_neg href]
                    exact ih _ _ _ _ hv4
                · rw [if_neg hcond]
                  exact ih _ _ _ _ hv3
            · rw [if_neg hmem]
              exact hv2

theorem sum_map_ext_of_get? {α β : Type} [AddCommMonoid β] (f : α → β) :
    ∀ (l1 l2 : List α), l1.length = l2.length →
      (∀ i, (l1.get? i).map f = (l2.get? i).map f) →
      (l1.map f).sum = (l2.map f).sum := by
  intro l1
  induction l1 with
  | nil =>
    intro l2 hlen _
    cases l2 with
    | nil => rfl
    | cons y ys => cases hlen
  | cons x xs ih =>
    intro l2 hlen hp
    cases l2 with
    | nil => cases hlen
    | cons y ys =>
      have h0 := hp 0
      simp only [List.get?_cons_zero, Option.map_some'] at h0
      injection h0 with h0
      simp only [List.map_cons, List.sum_cons, h0]
      rw [ih ys (by simpa using hlen) (fun i => hp (i + 1))]

theorem sum_ref_ext (f : TrieNode → Int) :
    ∀ (l2 l1 : List TrieNode), l1.length ≤ l2.length →
      (∀ i, i < l1.length → (l2.get? i).map f = (l1.get? i).map f) →
      (∀ i x, l1.length ≤ i → l2.get? i = some x → f x = 0) →
      (l2.map f).sum = (l1.map f).sum := by
  intro l2
  induction l2 with
  | nil =>
    intro l1 hlen _ _
    have : l1 = [] := List.eq_nil_of_length_eq_zero (by simpa using hlen)
    rw [this]
  | cons y ys ih =>
    intro l1 hlen hold hnew
    cases l1 with
    | nil =>
      have hy : f y = 0 := hnew 0 y (by simp) rfl
      simp only [List.map_cons, List.sum_cons, hy, List.map_nil,
        List.sum_nil, zero_add]
      exact ih [] (by simp) (fun i hi => by cases hi)
        (fun i x _ hx => hnew (i + 1) x (by simp) hx)
    | cons x xs =>
      have h0 := hold 0 (by simp)
      simp only [List.get?_cons_zero, Option.map_some'] at h0
      injection h0 with h0
      simp only [List.map_cons, List.sum_cons, h0]
      rw [ih xs (by simpa using hlen) (fun i hi => hold (i + 1) (by simpa using hi))
        (fun i x2 hge hx => hnew (i + 1) x2 (by simp; omega) hx)]

theorem bumpRef_sum (c : Cache) (i : Nat) (d : Int) (hi : i < c.nodes.length) :
    sumRefs (bumpRef c i d) = sumRefs c + d := by
  show ((listModify c.nodes i _).map _).sum = _
  unfold sumRefs
  generalize c.nodes = l at hi ⊢
  induction l generalizing i with
  | nil => simp at hi
  | cons x xs ih =>
    cases i with
    | zero =>
      simp only [listModify, List.map_cons, List.sum_cons]
      ring
    | succ i =>
      simp only [listModify, List.map_cons, List.sum_cons]
      rw [ih i (by simpa using hi)]
      ring

theorem getNode_bumpRef (c : Cache) (i j : Nat) (d : Int) :
    getNode (bumpRef c i d) j
      = if j = i then (getNode c j).map
          (fun n => { n with ref_count := n.ref_count + d })
        else getNode c j := getNode_modifyNode c i j _

theorem evict_pages_len (c : Cache) (m : Int) :
    (evict_pages c m).2.nodes.length = c.nodes.length := by
  unfold evict_pages
  dsimp only
  obtain ⟨⟨_, _, _, _, _, hlen⟩, _⟩ := evictLoop_frame
    (c.nodes.length + (initialHeap c).length + 2) c (initialHeap c) [] m
  rcases hev : evictLoop (c.nodes.length + (initialHeap c).length + 2) c
    (initialHeap c) [] m with ⟨r, c1⟩
  rw [hev] at hlen
  cases r with
  | error e => exact hlen
  | ok popped =>
    dsimp only
    by_cases hpe : popped.isEmpty <;>
      simp only [hpe, ite_true, ite_false, Bool.false_eq_true] <;>
      exact hlen

theorem evict_pages_childrenValid (c : Cache) (m : Int)
    (hv : ChildrenValid c) : ChildrenValid (evict_pages c m).2 := by
  unfold evict_pages
  dsimp only
  have hcv := evictLoop_childrenValid
    (c.nodes.length + (initialHeap c).length + 2) c (initialHeap c) [] m hv
  rcases hev : evictLoop (c.nodes.length + (initialHeap c).length + 2) c
    (initialHeap c) [] m with ⟨r, c1⟩
  rw [hev] at hcv
  cases r with
  | error e => exact hcv
  | ok popped =>
    dsimp only
    by_cases hpe : popped.isEmpty <;>
      simp only [hpe, ite_true, ite_false, Bool.false_eq_true]
    · exact hcv
    · exact fun i nn hget e he => hcv i nn hget e he

theorem ref_eq_of_core {n m : TrieNode} (h : nodeCore n = nodeCore m) :
    n.ref_count = m.ref_count := congrArg (fun x => x.2.2.1) h

theorem runOp_evict_pres (s : SysState) (n : Int) (hv : ValidState s)
    (hrc : RefCorrect s) (hsum : sumRefs s.cache = (liveAllocs s : Int)) :
    ValidState (runOp s (.evict n)) ∧ RefCorrect (runOp s (.evict n)) ∧
    sumRefs (runOp s (.evict n)).cache
      = (liveAllocs (runOp s (.evict n)) : Int) := by
  obtain ⟨hframe, _⟩ := evict_pages_frame s.cache n
  have hlen := evict_pages_len s.cache n
  refine ⟨⟨by rw [show (runOp s (.evict n)).cache = (evict_pages s.cache n).2
        from rfl, hlen]; exact hv.1, ?_, ?_⟩, ?_, ?_⟩
  · intro a ha
    show a.last_cached_node < (evict_pages s.cache n).2.nodes.length
    rw [hlen]
    exact hv.2.1 a ha
  · exact evict_pages_childrenValid s.cache n hv.2.2
  · intro i nn hget
    have hci := hframe i
    rw [show getNode (runOp s (.evict n)).cache i
      = getNode (evict_pages s.cache n).2 i from rfl] at hget
    rw [hget] at hci
    cases hga : getNode s.cache i with
    | none => rw [hga] at hci; simp at hci
    | some m =>
      rw [hga] at hci
      simp only [Option.map_some'] at hci
      injection hci with h2
      rw [ref_eq_of_core h2]
      exact hrc i m hga
  · show sumRefs (evict_pages s.cache n).2 = (liveAllocs s : Int)
    rw [← hsum]
    unfold sumRefs
    apply sum_map_ext_of_get? _ _ _ hlen
    intro i
    exact map_proj_of_map_core _ (fun n2 m2 h => ref_eq_of_core h) (hframe i)

theorem countLive_eq (s : SysState) (j : Nat) :
    countLive s j
      = s.allocs.countP (fun b => !b.is_released && b.last_cached_node == j) :=
  rfl

theorem liveAllocs_eq (s : SysState) :
    liveAllocs s = s.allocs.countP (fun b => !b.is_released) := rfl

theorem runOp_rel_eq (s : SysState) (i : Nat) :
    runOp s (.rel i) = (match s.allocs.get? i with
      | none => s
      | some a => { cache := (release_pages s.cache a).1,
                    allocs := s.allocs.set i (release_pages s.cache a).2 }) := rfl

theorem runOp_rel_pres (s : SysState) (i : Nat) (hv : ValidState s)
    (hrc : RefCorrect s) (hsum : sumRefs s.cache = (liveAllocs s : Int)) :
    ValidState (runOp s (.rel i)) ∧ RefCorrect (runOp s (.rel i)) ∧
    sumRefs (runOp s (.rel i)).cache
      = (liveAllocs (runOp s (.rel i)) : Int) := by
  rw [runOp_rel_eq]
  cases hga : s.allocs.get? i with
  | none => exact ⟨hv, hrc, hsum⟩
  | some a =>
    dsimp only
    obtain ⟨l1, l2, hsplit, hl1, hset⟩ := list_split_of_get? hga
    have hmem : a ∈ s.allocs := by rw [hsplit]; simp
    by_cases hrel : a.is_released
    · rw [show release_pages s.cache a = (s.cache, a) from by
        simp [release_pages, hrel]]
      dsimp only
      rw [hset a, ← hsplit]
      exact ⟨hv, hrc, hsum⟩
    · simp only [Bool.not_eq_true] at hrel
      rw [show release_pages s.cache a
        = (bumpRef s.cache a.last_cached_node (-1),
           { a with is_released := true }) from by simp [release_pages, hrel]]
      dsimp only
      have hlcn : a.last_cached_node < s.cache.nodes.length := hv.2.1 a hmem
      have hlenb : (bumpRef s.cache a.last_cached_node (-1)).nodes.length
          = s.cache.nodes.length := by
        simp [bumpRef, modifyNode, listModify_length]
      refine ⟨⟨?_, ?_, ?_⟩, ?_, ?_⟩
      · show 0 < (bumpRef s.cache a.last_cached_node (-1)).nodes.length
        rw [hlenb]
        exact hv.1
      · intro b hb
        show b.last_cached_node
          < (bumpRef s.cache a.last_cached_node (-1)).nodes.length
        rw [hlenb]
        have hb3 : b ∈ s.allocs.set i { a with is_released := true } := hb
        rw [hset] at hb3
        rcases List.mem_append.mp hb3 with hb1 | hb1
        · exact hv.2.1 b (by rw [hsplit]; exact List.mem_append_left _ hb1)
        · rcases List.mem_cons.mp hb1 with hb2 | hb2
          · rw [hb2]
            exact hlcn
          · refine hv.2.1 b ?_
            rw [hsplit]
            exact List.mem_append_right _ (List.mem_cons_of_mem _ hb2)
      · exact childrenValid_modify _ _ _ (fun nn e he => he) hv.2.2
      · intro j nn hget
        rw [countLive_eq]
        dsimp only
        rw [hset, List.countP_append, List.countP_cons]
        have hclold : countLive s j
            = (l1.countP (fun b => !b.is_released && b.last_cached_node == j))
              + ((l2.countP (fun b => !b.is_released && b.last_cached_node == j))
              + (if a.last_cached_node = j then 1 else 0)) := by
          rw [countLive_eq, hsplit, List.countP_append, List.countP_cons]
          by_cases hj : a.last_cached_node = j <;> simp [hrel, hj]
        have hget2 : getNode (bumpRef s.cache a.last_cached_node (-1)) j
            = some nn := hget
        rw [getNode_bumpRef] at hget2
        by_cases hj : j = a.last_cached_node
        · rw [if_pos hj] at hget2
          cases hgm : getNode s.cache j with
          | none => rw [hgm] at hget2; cases hget2
          | some m =>
            rw [hgm] at hget2
            simp only [Option.map_some'] at hget2
            injection hget2 with h2
            subst h2
            have hm := hrc j m hgm
            rw [hclold] at hm
            rw [if_pos hj.symm] at hm
            push_cast at hm ⊢
            simp [hm]
            ring
        · rw [if_neg hj] at hget2
          have hm := hrc j nn hget2
          rw [hclold] at hm
          rw [if_neg (fun hc => hj hc.symm)] at hm
          push_cast at hm ⊢
          simp [hm]
      · show sumRefs (bumpRef s.cache a.last_cached_node (-1)) = _
        rw [bumpRef_sum _ _ _ hlcn, hsum, liveAllocs_eq, liveAllocs_eq]
        dsimp only
        rw [hset, List.countP_append, List.countP_cons, hsplit,
          List.countP_append, List.countP_cons]
        simp [hrel]
        push_cast
        ring

/-- The (block, page) pairs grafted by publish_pages. -/
def publishPairs (c : Cache) (a : Alloc) (k : Nat) : List (List Nat × Nat) :=
  (publishUncachedTokens c a k).zip
    (a.newly_acquired_pages.take (publishUncachedTokens c a k).length)

/-- The graft phase of publish_pages. -/
def publishGraft (c : Cache) (a : Alloc) (k : Nat) : Cache × Nat :=
  graftBlocks c a.last_cached_node (publishPairs c a k)

theorem publish_pages_eq (c : Cache) (a : Alloc) (k : Nat) :
    publish_pages c a k
      = (bumpRef (bumpRef
            (if (publishGraft c a k).2 ≠ 0
             then { (publishGraft c a k).1 with
                    leaves := listAdd (publishGraft c a k).1.leaves
                      (publishGraft c a k).2 }
             else (publishGraft c a k).1)
            (publishGraft c a k).2 1) a.last_cached_node (-1),
         { a with
           cached_pages := a.cached_pages
             ++ a.newly_acquired_pages.take
                 (publishUncachedTokens c a k).length,
           newly_acquired_pages := a.newly_acquired_pages.drop
             (a.newly_acquired_pages.take
               (publishUncachedTokens c a k).length).length,
           last_cached_node := (publishGraft c a k).2 }) := rfl

theorem publishGraft_spec (c : Cache) (a : Alloc) (k : Nat)
    (hlcn : a.last_cached_node < c.nodes.length) :
    (publishGraft c a k).1.nodes.length
        = c.nodes.length + (publishPairs c a k).length ∧
    (∀ i, i < c.nodes.length →
      (getNode (publishGraft c a k).1 i).map (fun n => n.ref_count)
        = (getNode c i).map (fun n => n.ref_count)) ∧
    (∀ i nn, c.nodes.length ≤ i →
      getNode (publishGraft c a k).1 i = some nn → nn.ref_count = 0) ∧
    (publishGraft c a k).2 < (publishGraft c a k).1.nodes.length ∧
    (ChildrenValid c → ChildrenValid (publishGraft c a k).1) ∧
    (publishGraft c a k).1.leaves = c.leaves :=
  graftBlocks_spec (publishPairs c a k) c a.last_cached_node hlcn

theorem getNode_bumpRef_elim {c : Cache} {i j : Nat} {d : Int} {nn : TrieNode}
    (h : getNode (bumpRef c i d) j = some nn) :
    ∃ m, getNode c j = some m
      ∧ nn.ref_count = m.ref_count + (if j = i then d else 0)
      ∧ nn.children = m.children := by
  rw [getNode_bumpRef] at h
  by_cases hj : j = i
  · rw [if_pos hj] at h
    cases hgc : getNode c j with
    | none => rw [hgc] at h; cases h
    | some m =>
      rw [hgc] at h
      simp only [Option.map_some'] at h
      injection h with h2
      subst h2
      exact ⟨m, rfl, by simp [hj], rfl⟩
  · rw [if_neg hj] at h
    exact ⟨nn, h, by simp [hj], rfl⟩

theorem getNode_iteLeaves (c : Cache) (P : Prop) [Decidable P] (l : List Nat)
    (j : Nat) :
    getNode (if P then { c with leaves := l } else c) j = getNode c j := by
  split <;> rfl

theorem nodesLen_iteLeaves (c : Cache) (P : Prop) [Decidable P]
    (l : List Nat) :
    (if P then { c with leaves := l } else c).nodes.length
      = c.nodes.length := by
  split <;> rfl

theorem sumRefs_iteLeaves (c : Cache) (P : Prop) [Decidable P]
    (l : List Nat) :
    sumRefs (if P then { c with leaves := l } else c) = sumRefs c := by
  split <;> rfl

theorem bumpRef_len (c : Cache) (i : Nat) (d : Int) :
    (bumpRef c i d).nodes.length = c.nodes.length := by
  simp [bumpRef, modifyNode, listModify_length]

theorem runOp_pub_eq (s : SysState) (i k : Nat) :
    runOp s (.pub i k) = (match s.allocs.get? i with
      | none => s
      | some a => { cache := (publish_pages s.cache a k).1,
                    allocs := s.allocs.set i (publish_pages s.cache a k).2 }) :=
  rfl

theorem runOp_pub_pres (s : SysState) (i k : Nat) (hv : ValidState s)
    (hrc : RefCorrect s) (hsum : sumRefs s.cache = (liveAllocs s : Int))
    (hok : okOpB s (.pub i k) = true) :
    ValidState (runOp s (.pub i k)) ∧ RefCorrect (runOp s (.pub i k)) ∧
    sumRefs (runOp s (.pub i k)).cache
      = (liveAllocs (runOp s (.pub i k)) : Int) := by
  rw [runOp_pub_eq]
  cases hga : s.allocs.get? i with
  | none => exact ⟨hv, hrc, hsum⟩
  | some a =>
    dsimp only
    have hlive : a.is_released = false := by
      unfold okOpB at hok
      dsimp only at hok
      rw [hga] at hok
      simpa using hok
    obtain ⟨l1, l2, hsplit, hl1, hset⟩ := list_split_of_get? hga
    have hmem : a ∈ s.allocs := by rw [hsplit]; simp
    have hlcn : a.last_cached_node < s.cache.nodes.length := hv.2.1 a hmem
    rw [publish_pages_eq]
    obtain ⟨hglen, hgold, hgnew, hgend, hgcv, hglv⟩ :=
      publishGraft_spec s.cache a k hlcn
    generalize hG : publishGraft s.cache a k = G
    rw [hG] at hglen hgold hgnew hgend hgcv hglv
    dsimp only
    have hlen2 : (bumpRef (bumpRef
        (if G.2 ≠ 0 then { G.1 with leaves := listAdd G.1.leaves G.2 }
         else G.1) G.2 1) a.last_cached_node (-1)).nodes.length
        = G.1.nodes.length := by
      rw [bumpRef_len, bumpRef_len, nodesLen_iteLeaves]
    have hCget : ∀ j nn, getNode (bumpRef (bumpRef
        (if G.2 ≠ 0 then { G.1 with leaves := listAdd G.1.leaves G.2 }
         else G.1) G.2 1) a.last_cached_node (-1)) j = some nn →
        ∃ m, getNode G.1 j = some m ∧
          nn.ref_count = m.ref_count + (if j = G.2 then 1 else 0)
            + (if j = a.last_cached_node then (-1 : Int) else 0) := by
      intro j nn h
      obtain ⟨m1, hm1, hr1, _⟩ := getNode_bumpRef_elim h
      obtain ⟨m2, hm2, hr2, _⟩ := getNode_bumpRef_elim hm1
      rw [getNode_iteLeaves] at hm2
      refine ⟨m2, hm2, ?_⟩
      rw [hr1, hr2]
    refine ⟨⟨?_, ?_, ?_⟩, ?_, ?_⟩
    · have h1 : 0 < (bumpRef (bumpRef
          (if G.2 ≠ 0 then { G.1 with leaves := listAdd G.1.leaves G.2 }
           else G.1) G.2 1) a.last_cached_node (-1)).nodes.length := by
        rw [hlen2]
        omega
      exact h1
    · intro b hb
      dsimp only at hb
      rw [hset] at hb
      have hgoal : b.last_cached_node < (bumpRef (bumpRef
          (if G.2 ≠ 0 then { G.1 with leaves := listAdd G.1.leaves G.2 }
           else G.1) G.2 1) a.last_cached_node (-1)).nodes.length := by
        rw [hlen2]
        rcases List.mem_append.mp hb with hb1 | hb1
        · have := hv.2.1 b (by rw [hsplit]; exact List.mem_append_left _ hb1)
          omega
        · rcases List.mem_cons.mp hb1 with hb2 | hb2
          · rw [hb2]
            dsimp only
            exact hgend
          · have := hv.2.1 b (by
              rw [hsplit]
              exact List.mem_append_right _ (List.mem_cons_of_mem _ hb2))
            omega
      exact hgoal
    · have hcv1 : ChildrenValid (if G.2 ≠ 0 then
          { G.1 with leaves := listAdd G.1.leaves G.2 } else G.1) := by
        split
        · exact childrenValid_setLeaves _ _ (hgcv hv.2.2)
        · exact hgcv hv.2.2
      exact childrenValid_modify _ _ _ (fun nn e he => he)
        (childrenValid_modify _ _ _ (fun nn e he => he) hcv1)
    · intro j nn hget
      dsimp only at hget
      obtain ⟨m, hm, hr⟩ := hCget j nn hget
      have hmref : m.ref_count = (countLive s j : Int) := by
        by_cases hjl : j < s.cache.nodes.length
        · have hmap := hgold j hjl
          rw [hm] at hmap
          cases hgs : getNode s.cache j with
          | none => rw [hgs] at hmap; simp at hmap
          | some m0 =>
            rw [hgs] at hmap
            simp only [Option.map_some'] at hmap
            injection hmap with h2
            rw [h2]
            exact hrc j m0 hgs
        · have hz := hgnew j m (by omega) hm
          rw [hz]
          have hcz : countLive s j = 0 := by
            rw [countLive_eq, List.countP_eq_zero]
            intro b hb
            have := hv.2.1 b hb
            simp only [Bool.and_eq_true, beq_iff_eq, Bool.not_eq_true',
              not_and]
            intro _
            omega
          rw [hcz]
          rfl
      rw [countLive_eq]
      dsimp only
      rw [hset, List.countP_append, List.countP_cons]
      have hcls : countLive s j
          = l1.countP (fun b => !b.is_released && b.last_cached_node == j)
            + (l2.countP (fun b => !b.is_released && b.last_cached_node == j)
               + if a.last_cached_node = j then 1 else 0) := by
        rw [countLive_eq, hsplit, List.countP_append, List.countP_cons]
        by_cases hj : a.last_cached_node = j <;> simp [hlive, hj]
      rw [hr, hmref, hcls]
      simp only [hlive, Bool.not_false, Bool.true_and, beq_iff_eq]
      push_cast
      split_ifs <;> omega
    · dsimp only
      have hbl1 : G.2 < (if G.2 ≠ 0 then
          { G.1 with leaves := listAdd G.1.leaves G.2 } else G.1).nodes.length := by
        rw [nodesLen_iteLeaves]
        exact hgend
      have hbl2 : a.last_cached_node < (bumpRef
          (if G.2 ≠ 0 then { G.1 with leaves := listAdd G.1.leaves G.2 }
           else G.1) G.2 1).nodes.length := by
        rw [bumpRef_len, nodesLen_iteLeaves]
        omega
      rw [bumpRef_sum _ _ _ hbl2, bumpRef_sum _ _ _ hbl1, sumRefs_iteLeaves]
      have hsg : sumRefs G.1 = sumRefs s.cache := by
        unfold sumRefs
        refine sum_ref_ext _ G.1.nodes s.cache.nodes (by omega) ?_ ?_
        · intro i2 hi2
          exact hgold i2 hi2
        · intro i2 x hge hx
          exact hgnew i2 x hge hx
      rw [hsg, hsum, liveAllocs_eq, liveAllocs_eq]
      dsimp only
      rw [hset, List.countP_append, List.countP_cons, hsplit,
        List.countP_append, List.countP_cons]
      simp [hlive] <;> push_cast <;> ring

theorem poolAcquire_some {c : Cache} {n : Int} {p : List Nat} {c1 : Cache}
    (h : poolAcquireFreePages c n = some (p, c1)) :
    c1.nodes = c.nodes ∧ c1.leaves = c.leaves := by
  unfold poolAcquireFreePages at h
  by_cases hle : n ≤ (c.available_pages.length : Int)
  · rw [if_pos hle] at h
    injection h with h2
    injection h2 with h3 h4
    rw [← h4]
    exact ⟨rfl, rfl⟩
  · rw [if_neg hle] at h
    cases h

theorem childrenValid_of_nodes_eq {c d : Cache} (h : d.nodes = c.nodes)
    (hv : ChildrenValid c) : ChildrenValid d := by
  intro i nn hget e he
  rw [h]
  refine hv i nn ?_ e he
  rw [show getNode c i = getNode d i from by simp [getNode, h]]
  exact hget

/-- On the success path, acquire_pages_for_tokens pins the matched node:
the returned allocation is live and points inside the arena, the arena keeps
its length and child structure, exactly the matched node's ref_count grew by
one, and the refcount sum grew by one. -/
theorem acquire_ok_spec (c : Cache) (toks : List Nat) (extra : Int)
    (hroot : 0 < c.nodes.length) (hcv : ChildrenValid c)
    {al : Alloc} {c1 : Cache}
    (hacq : acquire_pages_for_tokens c toks extra = (.ok al, c1)) :
    al.last_cached_node < c.nodes.length ∧
    al.is_released = false ∧
    c1.nodes.length = c.nodes.length ∧
    ChildrenValid c1 ∧
    (∀ j, (getNode c1 j).map (fun n => n.ref_count)
      = if j = al.last_cached_node
        then (getNode c j).map (fun n => n.ref_count + 1)
        else (getNode c j).map (fun n => n.ref_count)) ∧
    sumRefs c1 = sumRefs c + 1 := by
  obtain ⟨mskel, _, _, _, _, _, _⟩ := matchLoop_master
    (sliceBlocks toks 0 toks.length c.tokens_per_page) c 0 []
  have hmlen : (trieMatch c toks).1.nodes.length = c.nodes.length :=
    sameSkel_length mskel
  have hmlt : (trieMatch c toks).2.1 < c.nodes.length :=
    matchLoop_lt (sliceBlocks toks 0 toks.length c.tokens_per_page) c 0 []
      hroot hcv
  have hmcv : ChildrenValid (trieMatch c toks).1 :=
    childrenValid_of_sameSkel mskel hcv
  have hc2refs : ∀ j,
      (getNode (bumpRef (trieMatch c toks).1 (trieMatch c toks).2.1 1) j).map
          (fun n => n.ref_count)
        = if j = (trieMatch c toks).2.1
          then (getNode c j).map (fun n => n.ref_count + 1)
          else (getNode c j).map (fun n => n.ref_count) := by
    intro j
    rw [getNode_bumpRef]
    by_cases hj : j = (trieMatch c toks).2.1
    · rw [if_pos hj, if_pos hj, Option.map_map]
      have := sameSkel_map (fun n => n.ref_count + 1) (fun n => rfl) mskel j
      simpa [Function.comp] using this
    · rw [if_neg hj, if_neg hj]
      exact sameSkel_map (fun n => n.ref_count) (fun n => rfl) mskel j
  have hc2len : (bumpRef (trieMatch c toks).1
      (trieMatch c toks).2.1 1).nodes.length = c.nodes.length := by
    rw [bumpRef_len, hmlen]
  have hc2cv : ChildrenValid (bumpRef (trieMatch c toks).1
      (trieMatch c toks).2.1 1) :=
    childrenValid_modify _ _ _ (fun nn e he => he) hmcv
  have hc2sum : sumRefs (bumpRef (trieMatch c toks).1
      (trieMatch c toks).2.1 1) = sumRefs c + 1 := by
    rw [bumpRef_sum _ _ _ (by omega)]
    have : sumRefs (trieMatch c toks).1 = sumRefs c := by
      unfold sumRefs
      exact sum_map_ext_of_get? _ _ _ hmlen
        (fun j => sameSkel_map (fun n => n.ref_count) (fun n => rfl) mskel j)
    rw [this]
  unfold acquire_pages_for_tokens at hacq
  dsimp only at hacq
  cases hfirst : poolAcquireFreePages
      (bumpRef (trieMatch c toks).1 (trieMatch c toks).2.1 1)
      (ceilDivInt ((toks.length : Int)
        - (((trieMatch c toks).2.2.length * c.tokens_per_page : Nat) : Int)
        + extra) c.tokens_per_page) with
  | some pr =>
    obtain ⟨pgs, c3⟩ := pr
    rw [hfirst] at hacq
    dsimp only at hacq
    injection hacq with h1 h2
    injection h1 with h1
    obtain ⟨hn3, _⟩ := poolAcquire_some hfirst
    subst h2
    rw [← h1]
    refine ⟨hmlt, rfl, ?_, ?_, ?_, ?_⟩
    · rw [show c3.nodes.length = (bumpRef (trieMatch c toks).1
        (trieMatch c toks).2.1 1).nodes.length from by rw [hn3]]
      exact hc2len
    · exact childrenValid_of_nodes_eq hn3 hc2cv
    · intro j
      rw [show getNode c3 j = getNode (bumpRef (trieMatch c toks).1
        (trieMatch c toks).2.1 1) j from by simp [getNode, hn3]]
      exact hc2refs j
    · rw [show sumRefs c3 = sumRefs (bumpRef (trieMatch c toks).1
        (trieMatch c toks).2.1 1) from by unfold sumRefs; rw [hn3]]
      exact hc2sum
  | none =>
    rw [hfirst] at hacq
    dsimp only at hacq
    rcases hev : evict_pages
        (bumpRef (trieMatch c toks).1 (trieMatch c toks).2.1 1)
        (ceilDivInt ((toks.length : Int)
          - (((trieMatch c toks).2.2.length * c.tokens_per_page : Nat) : Int)
          + extra) c.tokens_per_page
          - ((bumpRef (trieMatch c toks).1 (trieMatch c toks).2.1
                1).available_pages.length : Int)) with ⟨r, c3⟩
    obtain ⟨hevframe, _⟩ := evict_pages_frame
        (bumpRef (trieMatch c toks).1 (trieMatch c toks).2.1 1)
        (ceilDivInt ((toks.length : Int)
          - (((trieMatch c toks).2.2.length * c.tokens_per_page : Nat) : Int)
          + extra) c.tokens_per_page
          - ((bumpRef (trieMatch c toks).1 (trieMatch c toks).2.1
                1).available_pages.length : Int))
    have hevlen := evict_pages_len
        (bumpRef (trieMatch c toks).1 (trieMatch c toks).2.1 1)
        (ceilDivInt ((toks.length : Int)
          - (((trieMatch c toks).2.2.length * c.tokens_per_page : Nat) : Int)
          + extra) c.tokens_per_page
          - ((bumpRef (trieMatch c toks).1 (trieMatch c toks).2.1
                1).available_pages.length : Int))
    have hevcv := evict_pages_childrenValid
        (bumpRef (trieMatch c toks).1 (trieMatch c toks).2.1 1)
        (ceilDivInt ((toks.length : Int)
          - (((trieMatch c toks).2.2.length * c.tokens_per_page : Nat) : Int)
          + extra) c.tokens_per_page
          - ((bumpRef (trieMatch c toks).1 (trieMatch c toks).2.1
                1).available_pages.length : Int)) hc2cv
    rw [hev] at hacq hevframe hevlen hevcv
    dsimp only at hevframe hevlen hevcv
    cases r with
    | error e =>
      dsimp only at hacq
      cases hacq
    | ok k0 =>
      dsimp only at hacq
      cases hsecond : poolAcquireFreePages c3
          (ceilDivInt ((toks.length : Int)
            - (((trieMatch c toks).2.2.length * c.tokens_per_page : Nat) : Int)
            + extra) c.tokens_per_page) with
      | some pr2 =>
        obtain ⟨pgs2, c4⟩ := pr2
        rw [hsecond] at hacq
        dsimp only at hacq
        injection hacq with h1 h2
        injection h1 with h1
        obtain ⟨hn4, _⟩ := poolAcquire_some hsecond
        subst h2
        rw [← h1]
        have hc3refs : ∀ j, (getNode c3 j).map (fun n => n.ref_count)
            = if j = (trieMatch c toks).2.1
              then (getNode c j).map (fun n => n.ref_count + 1)
              else (getNode c j).map (fun n => n.ref_count) := by
          intro j
          rw [← hc2refs j]
          exact map_proj_of_map_core _ (fun n m h => ref_eq_of_core h)
            (hevframe j)
        refine ⟨hmlt, rfl, ?_, ?_, ?_, ?_⟩
        · rw [show c4.nodes.length = c3.nodes.length from by rw [hn4],
            hevlen]
          exact hc2len
        · exact childrenValid_of_nodes_eq hn4 hevcv
        · intro j
          rw [show getNode c4 j = getNode c3 j from by simp [getNode, hn4]]
          exact hc3refs j
        · rw [show sumRefs c4 = sumRefs c3 from by unfold sumRefs; rw [hn4]]
          have : sumRefs c3 = sumRefs (bumpRef (trieMatch c toks).1
              (trieMatch c toks).2.1 1) := by
            unfold sumRefs
            refine sum_map_ext_of_get? _ _ _ hevlen ?_
            intro j
            exact map_proj_of_map_core _ (fun n m h => ref_eq_of_core h)
              (hevframe j)
          rw [this]
          exact hc2sum
      | none =>
        rw [hsecond] at hacq
        dsimp only at hacq
        cases hacq

theorem runOp_acq_eq (s : SysState) (toks : List Nat) (extra : Int) :
    runOp s (.acq toks extra) = (match acquire_pages_for_tokens s.cache toks extra with
      | (.ok a, c1) => { cache := c1, allocs := s.allocs ++ [a] }
      | (.error _, c1) => { cache := c1, allocs := s.allocs }) := rfl

theorem runOp_acq_pres (s : SysState) (toks : List Nat) (extra : Int)
    (hv : ValidState s) (hrc : RefCorrect s)
    (hsum : sumRefs s.cache = (liveAllocs s : Int))
    (hok : okOpB s (.acq toks extra) = true) :
    ValidState (runOp s (.acq toks extra)) ∧
    RefCorrect (runOp s (.acq toks extra)) ∧
    sumRefs (runOp s (.acq toks extra)).cache
      = (liveAllocs (runOp s (.acq toks extra)) : Int) := by
  rw [runOp_acq_eq]
  rcases hacq : acquire_pages_for_tokens s.cache toks extra with ⟨r, c1⟩
  cases r with
  | error e =>
    exfalso
    unfold okOpB at hok
    dsimp only at hok
    rw [hacq] at hok
    simp at hok
  | ok al =>
    dsimp only
    obtain ⟨hlt, hlive2, hlen, hcv, hrefs, hsum2⟩ :=
      acquire_ok_spec s.cache toks extra hv.1 hv.2.2 hacq
    refine ⟨⟨by rw [hlen]; exact hv.1, ?_, hcv⟩, ?_, ?_⟩
    · intro b hb
      have hb2 : b ∈ s.allocs ++ [al] := hb
      show b.last_cached_node < c1.nodes.length
      rw [hlen]
      rcases List.mem_append.mp hb2 with hb1 | hb1
      · exact hv.2.1 b hb1
      · rw [List.mem_singleton.mp hb1]
        exact hlt
    · intro j nn hget
      have hj := hrefs j
      rw [hget] at hj
      rw [countLive_eq]
      dsimp only
      rw [List.countP_append]
      by_cases hjl : j = al.last_cached_node
      · rw [if_pos hjl] at hj
        cases hgs : getNode s.cache j with
        | none => rw [hgs] at hj; simp at hj
        | some m0 =>
          rw [hgs] at hj
          simp only [Option.map_some'] at hj
          injection hj with hj2
          have hm0 := hrc j m0 hgs
          rw [hj2, hm0]
          have hone : List.countP
              (fun b => !b.is_released && b.last_cached_node == j) [al] = 1 := by
            simp [List.countP_cons, hlive2, hjl]
          rw [countLive_eq, hone]
          push_cast
          ring
      · rw [if_neg hjl] at hj
        cases hgs : getNode s.cache j with
        | none => rw [hgs] at hj; simp at hj
        | some m0 =>
          rw [hgs] at hj
          simp only [Option.map_some'] at hj
          injection hj with hj2
          have hm0 := hrc j m0 hgs
          rw [hj2, hm0]
          have hzero : List.countP
              (fun b => !b.is_released && b.last_cached_node == j) [al] = 0 := by
            simp [List.countP_cons, hlive2]
            intro hc
            exact absurd hc.symm hjl
          rw [countLive_eq, hzero]
          push_cast
          ring
    · show sumRefs c1 = _
      rw [hsum2, hsum, liveAllocs_eq, liveAllocs_eq]
      dsimp only
      rw [List.countP_append]
      have hone : List.countP (fun b => !b.is_released) [al] = 1 := by
        simp [List.countP_cons, hlive2]
      rw [hone]
      push_cast
      ring

theorem mkSys_init (tpp : Nat) (pool stamps : List Nat) :
    ValidState (mkSys tpp pool stamps) ∧ RefCorrect (mkSys tpp pool stamps) ∧
    sumRefs (mkSys tpp pool stamps).cache
      = (liveAllocs (mkSys tpp pool stamps) : Int) := by
  refine ⟨⟨?_, ?_, ?_⟩, ?_, ?_⟩
  · show (0 : Nat) < 1
    omega
  · intro a ha
    cases ha
  · intro i nn hget e he
    cases i with
    | zero =>
      injection hget with h2
      rw [← h2] at he
      cases he
    | succ i => cases hget
  · intro i n hget
    cases i with
    | zero =>
      injection hget with h2
      rw [← h2]
      rfl
    | succ i => cases hget
  · rfl

theorem runOps_inv (ops : List Op) :
    ∀ s, ValidState s → RefCorrect s →
      sumRefs s.cache = (liveAllocs s : Int) → wfTrace s ops = true →
      ValidState (runOps s ops) ∧ RefCorrect (runOps s ops) ∧
      sumRefs (runOps s ops).cache = (liveAllocs (runOps s ops) : Int) := by
  induction ops with
  | nil => intro s hv hrc hsum _; exact ⟨hv, hrc, hsum⟩
  | cons op rest ih =>
    intro s hv hrc hsum hwf
    rw [wfTrace] at hwf
    rw [Bool.and_eq_true] at hwf
    have hstep : ValidState (runOp s op) ∧ RefCorrect (runOp s op) ∧
        sumRefs (runOp s op).cache = (liveAllocs (runOp s op) : Int) := by
      cases op with
      | acq toks extra => exact runOp_acq_pres s toks extra hv hrc hsum hwf.1
      | pub i k => exact runOp_pub_pres s i k hv hrc hsum hwf.1
      | rel i => exact runOp_rel_pres s i hv hrc hsum
      | evict n => exact runOp_evict_pres s n hv hrc hsum
    show ValidState (runOps (runOp s op) rest) ∧ _
    exact ih (runOp s op) hstep.1 hstep.2.1 hstep.2.2 hwf.2

/-- C3 (amended): refcount correctness over well-formed traces.  Starting
from a fresh cache, after any sequence of top-level operations in which every
acquire succeeds (and publish targets a live allocation, per the lifecycle),
every node's ref_count is non-negative and equals the number of live
allocations whose last_cached_node is that node, and the sum of ref_count
over all nodes equals the number of live allocations.  The counterexample
c3_refcount_cex shows this fails as originally stated once a failing acquire
is allowed: the raise path leaves the matched node's pin in place. -/
theorem c3_refcount_invariant (tpp : Nat) (pool stamps : List Nat)
    (ops : List Op)
    (hwf : wfTrace (mkSys tpp pool stamps) ops = true) :
    (∀ i n, getNode (runOps (mkSys tpp pool stamps) ops).cache i = some n →
      0 ≤ n.ref_count ∧
      n.ref_count = (countLive (runOps (mkSys tpp pool stamps) ops) i : Int)) ∧
    sumRefs (runOps (mkSys tpp pool stamps) ops).cache
      = (liveAllocs (runOps (mkSys tpp pool stamps) ops) : Int) := by
  obtain ⟨hv0, hrc0, hsum0⟩ := mkSys_init tpp pool stamps
  obtain ⟨_, hrc, hsum⟩ := runOps_inv ops (mkSys tpp pool stamps) hv0 hrc0
    hsum0 hwf
  refine ⟨fun i n h => ⟨?_, hrc i n h⟩, hsum⟩
  rw [hrc i n h]
  exact Int.ofNat_nonneg _

/-- C3 witness: a concrete well-formed trace exercising acquire, publish,
release and eviction, at which the amended invariant is certified. -/
def c3WitTrace : List Op := [.acq [1, 2] 0, .pub 0 2, .rel 0, .evict 5]

theorem c3_refcount_witness :
    wfTrace (mkSys 1 [7, 8] [1, 2, 3, 4, 5, 6]) c3WitTrace = true ∧
    ((∀ i n, getNode (runOps (mkSys 1 [7, 8] [1, 2, 3, 4, 5, 6])
        c3WitTrace).cache i = some n →
      0 ≤ n.ref_count ∧
      n.ref_count = (countLive (runOps (mkSys 1 [7, 8] [1, 2, 3, 4, 5, 6])
        c3WitTrace) i : Int)) ∧
    sumRefs (runOps (mkSys 1 [7, 8] [1, 2, 3, 4, 5, 6]) c3WitTrace).cache
      = (liveAllocs (runOps (mkSys 1 [7, 8] [1, 2, 3, 4, 5, 6])
          c3WitTrace) : Int)) :=
  ⟨by decide, c3_refcount_invariant 1 [7, 8] [1, 2, 3, 4, 5, 6] c3WitTrace
    (by decide)⟩

/-! Infrastructure for the eviction claims: the data-model invariants of the
spec (section 3) phrased over the arena, and a full characterization of the
eviction loop. -/

/-- Ids of the children of node i. -/
def childIds (c : Cache) (i : Nat) : List Nat :=
  (nodeAt c i).children.map (fun e => e.2)

/-- The data-model invariants for a cache state: non-empty arena with the
root at id 0 and no parent; every non-root node linked to a parent; children
keys unique; parent/child coherence both ways, with child ids strictly above
their parent (children are created after their parents); and leaves holding
exactly the non-root nodes with empty children, without duplicates. -/
def Invariants (c : Cache) : Prop :=
  0 < c.nodes.length ∧
  (nodeAt c 0).parent = none ∧
  (∀ i, i < c.nodes.length → i ≠ 0 → (nodeAt c i).parent ≠ none) ∧
  (∀ i, i < c.nodes.length → ((nodeAt c i).children.map Prod.fst).Nodup) ∧
  (∀ i, i < c.nodes.length → ∀ e ∈ (nodeAt c i).children,
    e.2 < c.nodes.length ∧ i < e.2 ∧ (nodeAt c e.2).parent = some i ∧
    (nodeAt c e.2).tokens = e.1) ∧
  (∀ j, j < c.nodes.length → ∀ p ∈ (nodeAt c j).parent.toList,
    p < c.nodes.length ∧ ((nodeAt c j).tokens, j) ∈ (nodeAt c p).children) ∧
  c.leaves.Nodup ∧
  (∀ x ∈ c.leaves, x < c.nodes.length ∧ x ≠ 0 ∧ (nodeAt c x).children = []) ∧
  (∀ i, i < c.nodes.length → ((i ≠ 0 ∧ (nodeAt c i).children = []) →
    i ∈ c.leaves))

instance (c : Cache) : Decidable (Invariants c) := by
  unfold Invariants
  repeat' refine @instDecidableAnd _ _ ?_ ?_
  all_goals exact inferInstance

/-- All nodes carry pairwise distinct access times (no clock ties). -/
def DistinctTimes (c : Cache) : Prop :=
  ∀ i, i < c.nodes.length → ∀ j, j < c.nodes.length → i ≠ j →
    (nodeAt c i).access_time ≠ (nodeAt c j).access_time

instance (c : Cache) : Decidable (DistinctTimes c) := by
  unfold DistinctTimes
  exact inferInstance

/-- A node is eligible for eviction relative to the list done of already
evicted node ids: in range, non-root, unreferenced, not yet evicted, and all
of its children already evicted (initially: an unreferenced leaf). -/
def Eligible (c0 : Cache) (done : List Nat) (j : Nat) : Prop :=
  j < c0.nodes.length ∧ j ≠ 0 ∧ (nodeAt c0 j).ref_count = 0 ∧ j ∉ done ∧
  ∀ k ∈ childIds c0 j, k ∈ done

instance (c0 : Cache) (done : List Nat) (j : Nat) :
    Decidable (Eligible c0 done j) := by
  unfold Eligible
  exact inferInstance

/-- Structural correctness of an eviction record relative to the entry cache:
no id evicted twice, every record holds the node's own page with the node
non-root and unreferenced, and every node is evicted only after all of its
children (so its children dict is empty at that moment). -/
structure AccGood (c0 : Cache) (acc : List (Nat × Nat)) : Prop where
  nd : (acc.map (fun e => e.1)).Nodup
  props : ∀ e ∈ acc, e.2 = (nodeAt c0 e.1).page ∧ e.1 ≠ 0 ∧
    e.1 < c0.nodes.length ∧ (nodeAt c0 e.1).ref_count = 0
  children_done : ∀ k, (h : k < acc.length) →
    ∀ ch ∈ childIds c0 (acc.get ⟨k, h⟩).1, ch ∈ (acc.take k).map (fun e => e.1)
  closed : ∀ d ∈ acc.map (fun e => e.1), ∀ k ∈ childIds c0 d,
    k ∈ acc.map (fun e => e.1)

/-- Loop invariant of evictLoop, relative to the cache c0 at entry to
_evict_pages.  The current cache agrees with c0 up to the unlinking already
performed for the evicted set; the heap holds exactly the currently eligible
nodes, each with its access time; the eviction record is structurally
correct. -/
structure EvictInv (c0 c : Cache) (heap acc : List (Nat × Nat)) : Prop where
  len_eq : c.nodes.length = c0.nodes.length
  core : ∀ j, j < c0.nodes.length →
    (nodeAt c j).tokens = (nodeAt c0 j).tokens ∧
    (nodeAt c j).page = (nodeAt c0 j).page ∧
    (nodeAt c j).ref_count = (nodeAt c0 j).ref_count ∧
    (nodeAt c j).access_time = (nodeAt c0 j).access_time
  par : ∀ j, j < c0.nodes.length →
    (nodeAt c j).parent =
      if j ∈ acc.map (fun e => e.1) then none else (nodeAt c0 j).parent
  chil : ∀ j, j < c0.nodes.length →
    (nodeAt c j).children = (nodeAt c0 j).children.filter
      (fun e => decide (e.2 ∉ acc.map (fun e2 => e2.1)))
  leaves_iff : ∀ x, x ∈ c.leaves ↔ (x < c0.nodes.length ∧ x ≠ 0 ∧
    x ∉ acc.map (fun e => e.1) ∧
    ∀ k ∈ childIds c0 x, k ∈ acc.map (fun e => e.1))
  heap_nd : (heap.map (fun e => e.2)).Nodup
  heap_mem : ∀ e ∈ heap, e.1 = (nodeAt c0 e.2).access_time ∧
    Eligible c0 (acc.map (fun e2 => e2.1)) e.2
  heap_complete : ∀ j, Eligible c0 (acc.map (fun e => e.1)) j →
    j ∈ heap.map (fun e => e.2)
  good : AccGood c0 acc

/-- LRU correctness of an eviction record: each evicted node has minimal
access time among the nodes eligible at its turn. -/
def EvictOrdered (c0 : Cache) (acc : List (Nat × Nat)) : Prop :=
  ∀ k, (h : k < acc.length) → ∀ q,
    Eligible c0 ((acc.take k).map (fun e => e.1)) q →
    (nodeAt c0 (acc.get ⟨k, h⟩).1).access_time ≤ (nodeAt c0 q).access_time

theorem popMin_perm :
    ∀ (l : List (Nat × Nat)) m l', popMin l = .ok (m, l') →
      l.Perm (m :: l') := by
  intro l
  induction l with
  | nil => intro m l' h; cases h
  | cons a rest ih =>
    intro m l' h
    cases rest with
    | nil =>
      rw [popMin] at h
      injection h with h2
      injection h2 with h3 h4
      rw [← h3, ← h4]
    | cons b rest2 =>
      rw [popMin] at h
      cases hpm : popMin (b :: rest2) with
      | error er => rw [hpm] at h; cases h
      | ok pr =>
        rcases pr with ⟨m0, rest1⟩
        rw [hpm] at h
        simp only at h
        cases hlt : entryLt a m0 with
        | error er => rw [hlt] at h; cases h
        | ok bv =>
          rw [hlt] at h
          cases bv with
          | true =>
            simp only at h
            injection h with h2
            injection h2 with h3 h4
            rw [← h3, ← h4]
          | false =>
            simp only at h
            injection h with h2
            injection h2 with h3 h4
            rw [← h3, ← h4]
            exact List.Perm.trans (List.Perm.cons a (ih m0 rest1 hpm))
              (List.Perm.swap m0 a rest1)

theorem popMin_ok_spec :
    ∀ (l : List (Nat × Nat)), l ≠ [] →
      (∀ a ∈ l, ∀ b ∈ l, a ≠ b → a.1 ≠ b.1) →
      ∃ m l', popMin l = .ok (m, l') ∧ ∀ e ∈ l, m.1 ≤ e.1 := by
  intro l
  induction l with
  | nil => intro h; cases h rfl
  | cons a rest ih =>
    intro _ hd
    cases rest with
    | nil =>
      refine ⟨a, [], by rw [popMin], ?_⟩
      intro e he
      rw [List.mem_singleton.mp he]
    | cons b rest2 =>
      obtain ⟨m0, rest1, hpm, hmin⟩ := ih (by simp)
        (fun x hx y hy hxy => hd x (List.mem_cons_of_mem _ hx) y
          (List.mem_cons_of_mem _ hy) hxy)
      have hm0mem : m0 ∈ b :: rest2 :=
        (popMin_perm _ _ _ hpm).symm.subset (List.mem_cons_self _ _)
      by_cases hae : a = m0
      · have hlt : entryLt a m0 = .ok false := by
          rw [hae]; simp [entryLt]
        refine ⟨m0, a :: rest1, ?_, ?_⟩
        · rw [popMin, hpm]
          simp only
          rw [hlt]
        · intro e he
          rcases List.mem_cons.mp he with he | he
          · rw [he, hae]
          · exact hmin e he
      · have hne1 : a.1 ≠ m0.1 :=
          hd a (List.mem_cons_self _ _) m0 (List.mem_cons_of_mem _ hm0mem) hae
        have hlt : entryLt a m0 = .ok (decide (a.1 < m0.1)) := by
          unfold entryLt
          rw [if_neg hne1]
        by_cases hcmp : a.1 < m0.1
        · refine ⟨a, b :: rest2, ?_, ?_⟩
          · rw [popMin, hpm]
            simp only
            rw [hlt]
            simp [hcmp]
          · intro e he
            rcases List.mem_cons.mp he with he | he
            · rw [he]
            · exact le_trans (le_of_lt hcmp) (hmin e he)
        · refine ⟨m0, a :: rest1, ?_, ?_⟩
          · rw [popMin, hpm]
            simp only
            rw [hlt]
            simp [hcmp]
          · intro e he
            rcases List.mem_cons.mp he with he | he
            · rw [he]
              exact le_of_not_lt hcmp
            · exact hmin e he

theorem getNode_eq_nodeAt {c : Cache} {i : Nat} (h : i < c.nodes.length) :
    getNode c i = some (nodeAt c i) := by
  unfold nodeAt
  cases hg : getNode c i with
  | none =>
    exfalso
    unfold getNode at hg
    rw [List.get?_eq_none] at hg
    omega
  | some x => simp

theorem mem_listAdd_iff (l : List Nat) (y x : Nat) :
    x ∈ listAdd l y ↔ x ∈ l ∨ x = y := by
  unfold listAdd
  by_cases hy : y ∈ l
  · rw [if_pos hy]
    constructor
    · exact fun h => Or.inl h
    · intro h
      rcases h with h | h
      · exact h
      · rw [h]; exact hy
  · rw [if_neg hy]
    simp [List.mem_append]

theorem decide_not_mem_concat (x i : Nat) (done : List Nat) :
    decide (x ∉ done ++ [i]) = (decide (x ∉ done) && decide (x ≠ i)) := by
  by_cases h1 : x ∈ done <;> by_cases h2 : x = i <;>
    simp [h1, h2, List.mem_append]

/-- Deleting the unique entry with value i (present, at key key) from a dict
restricted to values outside done yields the dict restricted to values
outside done ++ [i]. -/
theorem dictErase_filter :
    ∀ (l : List (List Nat × Nat)) (done : List Nat) (key : List Nat) (i : Nat),
      (key, i) ∈ l → (l.map Prod.fst).Nodup →
      (∀ e ∈ l, e.2 = i → e = (key, i)) → i ∉ done →
      dictErase (l.filter (fun e => decide (e.2 ∉ done))) key
        = l.filter (fun e => decide (e.2 ∉ done ++ [i])) := by
  intro l
  induction l with
  | nil => intro done key i hmem; cases hmem
  | cons hd0 rest ih =>
    intro done key i hmem hnd huniq hni
    rcases hd0 with ⟨k0, v0⟩
    have hnd2 : (k0 :: rest.map Prod.fst).Nodup := hnd
    have hndhead : k0 ∉ rest.map Prod.fst := (List.nodup_cons.mp hnd2).1
    have hndrest : (rest.map Prod.fst).Nodup := (List.nodup_cons.mp hnd2).2
    by_cases hk : k0 = key
    · -- head key is the erased key; by unique keys the head is the entry
      have hhd : (k0, v0) = (key, i) := by
        rcases List.mem_cons.mp hmem with heq | hrest
        · exact heq.symm
        · exfalso
          rw [hk] at hndhead
          exact hndhead (List.mem_map.mpr ⟨(key, i), hrest, rfl⟩)
      have hv : v0 = i := by injection hhd with h1 h2
      have hrest_ne : ∀ e ∈ rest, e.2 ≠ i := by
        intro e he hei
        have := huniq e (List.mem_cons_of_mem _ he) hei
        rw [this] at he
        rw [hk] at hndhead
        exact hndhead (List.mem_map.mpr ⟨(key, i), he, rfl⟩)
      rw [hk, hv]
      have h1 : List.filter (fun e => decide (e.2 ∉ done)) ((key, i) :: rest)
          = (key, i) :: List.filter (fun e => decide (e.2 ∉ done)) rest := by
        simp [List.filter_cons, hni]
      have h2 : List.filter (fun e => decide (e.2 ∉ done ++ [i]))
            ((key, i) :: rest)
          = List.filter (fun e => decide (e.2 ∉ done ++ [i])) rest := by
        simp [List.filter_cons, List.mem_append]
      rw [h1, h2, dictErase, if_pos rfl]
      apply List.filter_congr
      intro e he
      rw [decide_not_mem_concat]
      have hne : decide (e.2 ≠ i) = true := by simp [hrest_ne e he]
      rw [hne, Bool.and_true]
    · -- head is a different entry
      have hrest : (key, i) ∈ rest := by
        rcases List.mem_cons.mp hmem with heq | hr
        · exfalso; apply hk; injection heq with h1 h2; exact h1.symm
        · exact hr
      have hv0 : v0 ≠ i := by
        intro hvv
        have := huniq (k0, v0) (List.mem_cons_self _ _) hvv
        injection this with h1 h2
        exact hk h1
      by_cases hv0d : v0 ∈ done
      · have h1 : List.filter (fun e => decide (e.2 ∉ done)) ((k0, v0) :: rest)
            = List.filter (fun e => decide (e.2 ∉ done)) rest := by
          simp [List.filter_cons, hv0d]
        have h2 : List.filter (fun e => decide (e.2 ∉ done ++ [i]))
              ((k0, v0) :: rest)
            = List.filter (fun e => decide (e.2 ∉ done ++ [i])) rest := by
          simp [List.filter_cons, List.mem_append, hv0d]
        rw [h1, h2]
        exact ih done key i hrest hndrest
          (fun e he => huniq e (List.mem_cons_of_mem _ he)) hni
      · have h1 : List.filter (fun e => decide (e.2 ∉ done)) ((k0, v0) :: rest)
            = (k0, v0) :: List.filter (fun e => decide (e.2 ∉ done)) rest := by
          simp [List.filter_cons, hv0d]
        have h2 : List.filter (fun e => decide (e.2 ∉ done ++ [i]))
              ((k0, v0) :: rest)
            = (k0, v0) :: List.filter (fun e => decide (e.2 ∉ done ++ [i]))
                rest := by
          simp [List.filter_cons, List.mem_append, hv0d, hv0]
        rw [h1, h2, dictErase, if_neg hk]
        rw [ih done key i hrest hndrest
          (fun e he => huniq e (List.mem_cons_of_mem _ he)) hni]

theorem nodup_get_not_mem_take {α : Type} :
    ∀ (l : List α), l.Nodup → ∀ (k : Nat) (hk : k < l.length),
      l.get ⟨k, hk⟩ ∉ l.take k := by
  intro l
  induction l with
  | nil => intro _ k hk; cases hk
  | cons x xs ih =>
    intro hnd k hk
    cases k with
    | zero => simp
    | succ k =>
      have hx : x ∉ xs := (List.nodup_cons.mp hnd).1
      have hxs : xs.Nodup := (List.nodup_cons.mp hnd).2
      simp only [List.take_succ_cons, List.get_cons_succ]
      intro hmem
      rcases List.mem_cons.mp hmem with h | h
      · exact hx (h ▸ List.get_mem xs k _)
      · exact ih hxs k (by simpa using hk) h

theorem get_append_left_of_lt {α : Type} (l l' : List α) (k : Nat)
    (h1 : k < l.length) (h2 : k < (l ++ l').length) :
    (l ++ l').get ⟨k, h2⟩ = l.get ⟨k, h1⟩ := by
  rw [List.get_append]

theorem get_append_len {α : Type} :
    ∀ (l : List α) (a : α) (h : l.length < (l ++ [a]).length),
      (l ++ [a]).get ⟨l.length, h⟩ = a := by
  intro l
  induction l with
  | nil => intro a h; rfl
  | cons x xs ih => intro a h; simpa using ih a (by simp)

theorem initialHeap_sublist (c : Cache) :
    ((initialHeap c).map (fun e => e.2)).Sublist c.leaves := by
  unfold initialHeap
  generalize c.leaves = l
  induction l with
  | nil => simp
  | cons i rest ih =>
    cases hg : getNode c i with
    | none =>
      simp only [List.filterMap_cons, hg]
      exact List.Sublist.cons i ih
    | some n =>
      by_cases href : n.ref_count = 0
      · simp only [List.filterMap_cons, hg, if_pos href, List.map_cons]
        exact List.Sublist.cons₂ i ih
      · simp only [List.filterMap_cons, hg, if_neg href]
        exact List.Sublist.cons i ih

theorem nodeAt_of_getNode {c : Cache} {i : Nat} {n : TrieNode}
    (h : getNode c i = some n) : nodeAt c i = n := by
  unfold nodeAt
  rw [h]
  rfl

/-- At entry to the eviction loop the invariant holds: nothing is evicted yet
and the initial heap holds exactly the unreferenced leaves. -/
theorem evictInv_init (c : Cache) (hI : Invariants c) :
    EvictInv c c (initialHeap c) [] := by
  obtain ⟨hlen0, hroot, hlink, hkeys, hdown, hup, hlnd, hlv1, hlv2⟩ := hI
  refine ⟨rfl, fun j hj => ⟨rfl, rfl, rfl, rfl⟩, fun j hj => by simp,
    fun j hj => by simp, ?_, ?_, ?_, ?_, ?_⟩
  · -- leaves_iff
    intro x
    constructor
    · intro hx
      obtain ⟨h1, h2, h3⟩ := hlv1 x hx
      refine ⟨h1, h2, by simp, ?_⟩
      intro k hk
      exfalso
      unfold childIds at hk
      rw [h3] at hk
      simp at hk
    · rintro ⟨h1, h2, h3, h4⟩
      apply hlv2 x h1
      refine ⟨h2, ?_⟩
      cases he : (nodeAt c x).children with
      | nil => rfl
      | cons e rest =>
        exfalso
        have hmem : e.2 ∈ childIds c x := by
          unfold childIds
          rw [he]
          simp
        have := h4 e.2 hmem
        simp at this
  · -- heap_nd
    exact List.Sublist.nodup (initialHeap_sublist c) hlnd
  · -- heap_mem
    intro e he
    unfold initialHeap at he
    rw [List.mem_filterMap] at he
    obtain ⟨i, hil, hfi⟩ := he
    cases hg : getNode c i with
    | none => rw [hg] at hfi; cases hfi
    | some n =>
      rw [hg] at hfi
      dsimp only at hfi
      by_cases href : n.ref_count = 0
      · rw [if_pos href] at hfi
        injection hfi with hfe
        have hn : nodeAt c i = n := nodeAt_of_getNode hg
        obtain ⟨h1, h2, h3⟩ := hlv1 i hil
        rw [← hfe]
        refine ⟨by rw [hn], h1, h2, by rw [hn]; exact href, by simp, ?_⟩
        intro k hk
        exfalso
        unfold childIds at hk
        rw [h3] at hk
        simp at hk
      · rw [if_neg href] at hfi
        cases hfi
  · -- heap_complete
    intro j hj
    obtain ⟨hjlt, hjne, hjref, _, hjch⟩ := hj
    have hch : (nodeAt c j).children = [] := by
      cases he : (nodeAt c j).children with
      | nil => rfl
      | cons e rest =>
        exfalso
        have hmem : e.2 ∈ childIds c j := by
          unfold childIds
          rw [he]
          simp
        have := hjch e.2 hmem
        simp at this
    have hjlv : j ∈ c.leaves := hlv2 j hjlt ⟨hjne, hch⟩
    rw [List.mem_map]
    refine ⟨((nodeAt c j).access_time, j), ?_, rfl⟩
    unfold initialHeap
    rw [List.mem_filterMap]
    refine ⟨j, hjlv, ?_⟩
    rw [getNode_eq_nodeAt hjlt]
    simp [hjref]
  · -- good
    refine ⟨by simp, by simp, ?_, by simp⟩
    intro k h
    exact absurd h (by simp)

theorem take_append_of_le {α : Type} :
    ∀ (l : List α) (l' : List α) (k : Nat), k ≤ l.length →
      (l ++ l').take k = l.take k := by
  intro l
  induction l with
  | nil =>
    intro l' k hk
    have hk0 : k = 0 := Nat.le_zero.mp (by simpa using hk)
    rw [hk0]
    rfl
  | cons x xs ih =>
    intro l' k hk
    cases k with
    | zero => rfl
    | succ k =>
      simp only [List.cons_append, List.take_succ_cons]
      rw [ih l' k (by simpa using hk)]

/-- Appending a newly evicted eligible node keeps the eviction record
structurally correct. -/
theorem accGood_snoc (c0 : Cache) (acc : List (Nat × Nat)) (i : Nat)
    (hg : AccGood c0 acc) (hilt : i < c0.nodes.length) (hine : i ≠ 0)
    (hiref : (nodeAt c0 i).ref_count = 0)
    (hidone : i ∉ acc.map (fun e => e.1))
    (hich : ∀ k ∈ childIds c0 i, k ∈ acc.map (fun e => e.1)) :
    AccGood c0 (acc ++ [(i, (nodeAt c0 i).page)]) := by
  obtain ⟨hand, hprops, hchd, hclosed⟩ := hg
  refine ⟨?_, ?_, ?_, ?_⟩
  · rw [List.map_append, List.nodup_append]
    refine ⟨hand, by simp, ?_⟩
    intro a ha hai
    have : a = i := by simpa using hai
    rw [this] at ha
    exact hidone ha
  · intro e he
    rcases List.mem_append.mp he with h | h
    · exact hprops e h
    · have : e = (i, (nodeAt c0 i).page) := by simpa using h
      rw [this]
      exact ⟨rfl, hine, hilt, hiref⟩
  · intro k h ch hch
    by_cases hk : k < acc.length
    · rw [get_append_left_of_lt _ _ k hk h] at hch
      rw [take_append_of_le _ _ k (le_of_lt hk)]
      exact hchd k hk ch hch
    · have hkeq : k = acc.length := by
        rw [List.length_append, List.length_singleton] at h
        omega
      subst hkeq
      rw [get_append_len] at hch
      rw [take_append_of_le _ _ _ (le_refl _), List.take_length]
      exact hich ch hch
  · intro d hd k hk
    rw [List.map_append] at hd ⊢
    rcases List.mem_append.mp hd with h | h
    · exact List.mem_append_left _ (hclosed d h k hk)
    · have hdi : d = i := by simpa using h
      rw [hdi] at hk
      exact List.mem_append_left _ (hich k hk)


theorem modifyNode_length (c : Cache) (j : Nat) (f : TrieNode → TrieNode) :
    (modifyNode c j f).nodes.length = c.nodes.length := by
  simp [modifyNode, listModify_length]

/-- One iteration of the eviction loop: under the loop invariant, a
successful pop of (t, i) runs the whole body without error, records
(i, page of i), and re-establishes the loop invariant. -/
theorem evictStep (c0 : Cache) (hI : Invariants c0) (c : Cache)
    (heap acc : List (Nat × Nat)) (t i : Nat) (heap1 : List (Nat × Nat))
    (hE : EvictInv c0 c heap acc)
    (hpop : popMin heap = .ok ((t, i), heap1))
    (fuel : Nat) (maxP : Int) (hcnt : (acc.length : Int) < maxP) :
    ∃ cN heapN,
      evictLoop (fuel + 1) c heap acc maxP
        = evictLoop fuel cN heapN (acc ++ [(i, (nodeAt c0 i).page)]) maxP ∧
      EvictInv c0 cN heapN (acc ++ [(i, (nodeAt c0 i).page)]) := by
  obtain ⟨hlen0, hroot, hlink, hkeys, hdown, hup, hlnd, hlv1, hlv2⟩ := hI
  have hlen := hE.len_eq
  have hperm : heap.Perm ((t, i) :: heap1) := popMin_perm heap (t, i) heap1 hpop
  have hmem_ti : (t, i) ∈ heap := hperm.symm.subset (List.mem_cons_self _ _)
  obtain ⟨ht, hElig⟩ := hE.heap_mem (t, i) hmem_ti
  obtain ⟨hilt, hine, hiref, hidone, hich⟩ := hElig
  have hilt' : i < c.nodes.length := by rw [hlen]; exact hilt
  have hgi : getNode c i = some (nodeAt c i) := getNode_eq_nodeAt hilt'
  obtain ⟨htok_i, hpage_i, href_i, htime_i⟩ := hE.core i hilt
  have hpar_i : (nodeAt c i).parent = (nodeAt c0 i).parent := by
    rw [hE.par i hilt, if_neg hidone]
  obtain ⟨p, hp⟩ : ∃ p, (nodeAt c0 i).parent = some p := by
    cases hcp : (nodeAt c0 i).parent with
    | none => exact absurd hcp (hlink i hilt hine)
    | some p => exact ⟨p, rfl⟩
  obtain ⟨hplt, hpc⟩ := hup i hilt p (by rw [hp]; simp)
  have hpi_lt : p < i := (hdown p hplt ((nodeAt c0 i).tokens, i) hpc).2.1
  have hpne_i : p ≠ i := Nat.ne_of_lt hpi_lt
  have hplt' : p < c.nodes.length := by rw [hlen]; exact hplt
  have hi_in_child_p : i ∈ childIds c0 p := by
    unfold childIds
    exact List.mem_map.mpr ⟨((nodeAt c0 i).tokens, i), hpc, rfl⟩
  have hpdone : p ∉ acc.map (fun e => e.1) := by
    intro hpd
    exact hidone (hE.good.closed p hpd i hi_in_child_p)
  have hpd' : p ∉ acc.map (fun e => e.1) ++ [i] := by
    intro hmm
    rcases List.mem_append.mp hmm with h | h
    · exact hpdone h
    · exact hpne_i (by simpa using h)
  have honly_p : ∀ j, j < c0.nodes.length → ∀ e ∈ (nodeAt c0 j).children,
      e.2 = i → j = p := by
    intro j hj e he hei
    obtain ⟨_, _, hpar, _⟩ := hdown j hj e he
    rw [hei, hp] at hpar
    injection hpar with h
    exact h.symm
  have huniq : ∀ e ∈ (nodeAt c0 p).children, e.2 = i →
      e = ((nodeAt c0 i).tokens, i) := by
    intro e he hei
    obtain ⟨_, _, _, htoks⟩ := hdown p hplt e he
    rcases e with ⟨k, v⟩
    dsimp only at hei htoks
    subst hei
    rw [← htoks]
  have hmap : List.map (fun e : Nat × Nat => e.1)
        (acc ++ [(i, (nodeAt c0 i).page)])
      = List.map (fun e : Nat × Nat => e.1) acc ++ [i] := by simp
  have hndcons : (((t, i) :: heap1).map (fun e => e.2)).Nodup :=
    ((hperm.map (fun e => e.2)).nodup_iff).mp hE.heap_nd
  have hndcons2 : (i :: heap1.map (fun e => e.2)).Nodup := by
    simpa using hndcons
  have hi_not_h1 : i ∉ heap1.map (fun e => e.2) :=
    (List.nodup_cons.mp hndcons2).1
  have hh1_nd : (heap1.map (fun e => e.2)).Nodup :=
    (List.nodup_cons.mp hndcons2).2
  have hmem_h1_heap : ∀ e ∈ heap1, e ∈ heap := fun e he =>
    hperm.symm.subset (List.mem_cons_of_mem _ he)
  have hheap_ids : ∀ j, j ∈ heap.map (fun e => e.2) ↔
      (j = i ∨ j ∈ heap1.map (fun e => e.2)) := by
    intro j
    have hpm := hperm.map (fun e => e.2)
    constructor
    · intro hj
      have := hpm.subset hj
      simpa using this
    · intro hj
      apply hpm.symm.subset
      simpa using hj
  have hp_not_heap : p ∉ heap.map (fun e => e.2) := by
    intro hmm
    rw [List.mem_map] at hmm
    obtain ⟨e, heh, hei⟩ := hmm
    obtain ⟨_, hel⟩ := hE.heap_mem e heh
    rw [hei] at hel
    exact hidone (hel.2.2.2.2 i hi_in_child_p)
  have hp_not_h1 : p ∉ heap1.map (fun e => e.2) := fun h =>
    hp_not_heap ((hheap_ids p).mpr (Or.inr h))
  have hElig_shift : ∀ j, j ≠ p →
      Eligible c0 (acc.map (fun e => e.1) ++ [i]) j →
      Eligible c0 (acc.map (fun e => e.1)) j := by
    rintro j hjp ⟨h1, h2, h3, h4, h5⟩
    refine ⟨h1, h2, h3, fun hj => h4 (List.mem_append_left _ hj), ?_⟩
    intro k hk
    rcases List.mem_append.mp (h5 k hk) with h | h
    · exact h
    · exfalso
      have hki : k = i := by simpa using h
      rw [hki] at hk
      unfold childIds at hk
      rw [List.mem_map] at hk
      obtain ⟨e, he, hei⟩ := hk
      exact hjp (honly_p j h1 e he hei)
  have hElig_up : ∀ j, j ≠ i →
      Eligible c0 (acc.map (fun e => e.1)) j →
      Eligible c0 (acc.map (fun e => e.1) ++ [i]) j := by
    rintro j hji ⟨h1, h2, h3, h4, h5⟩
    refine ⟨h1, h2, h3, ?_, fun k hk => List.mem_append_left _ (h5 k hk)⟩
    intro hmm
    rcases List.mem_append.mp hmm with h | h
    · exact h4 h
    · exact hji (by simpa using h)
  have hh1_mem : ∀ e ∈ heap1, e.1 = (nodeAt c0 e.2).access_time ∧
      Eligible c0 (acc.map (fun e2 => e2.1) ++ [i]) e.2 := by
    intro e he
    obtain ⟨h1, h2⟩ := hE.heap_mem e (hmem_h1_heap e he)
    refine ⟨h1, hElig_up e.2 ?_ h2⟩
    intro hei
    apply hi_not_h1
    rw [← hei]
    exact List.mem_map.mpr ⟨e, he, rfl⟩
  have hgood' : AccGood c0 (acc ++ [(i, (nodeAt c0 i).page)]) :=
    accGood_snoc c0 acc i hE.good hilt hine hiref hidone hich
  rw [evictLoop]
  have hguard : ¬(heap.isEmpty = true ∨ ¬((acc.length : Int) < maxP)) := by
    rintro (h | h)
    · rw [List.isEmpty_iff_eq_nil] at h
      rw [h] at hmem_ti
      simp at hmem_ti
    · exact h hcnt
  rw [if_neg hguard, hpop]
  dsimp only
  rw [hgi]
  dsimp only
  rw [hpage_i]
  have hpar_i' : (nodeAt c i).parent = some p := by rw [hpar_i, hp]
  rw [hpar_i']
  dsimp only
  set c1 := modifyNode c p
    (fun pn => { pn with children := dictErase pn.children (nodeAt c i).tokens })
    with hc1
  set c2 := modifyNode c1 i (fun m => { m with parent := none }) with hc2
  have hc2leaves : c2.leaves = c.leaves := rfl
  have hmemL : i ∈ c2.leaves := by
    rw [hc2leaves]
    exact (hE.leaves_iff i).mpr ⟨hilt, hine, hidone, hich⟩
  rw [if_pos hmemL]
  set c3 := { c2 with leaves := c2.leaves.filter (fun x => x ≠ i) } with hc3
  have hlen3 : c3.nodes.length = c0.nodes.length := by
    have h1 : c3.nodes = c2.nodes := rfl
    rw [h1, hc2, modifyNode_length, hc1, modifyNode_length, hlen]
  have hplt3 : p < c3.nodes.length := by rw [hlen3]; exact hplt
  rw [getNode_eq_nodeAt hplt3]
  dsimp only
  have hAt3 : ∀ j, j < c0.nodes.length → nodeAt c3 j =
      (if j = i then { nodeAt c i with parent := none }
       else if j = p then { nodeAt c p with children := dictErase (nodeAt c p).children (nodeAt c i).tokens }
       else nodeAt c j) := by
    intro j hj
    by_cases hji : j = i
    · rw [if_pos hji]
      have h3 : getNode c3 j = some { nodeAt c i with parent := none } := by
        rw [hji, show getNode c3 i = getNode c2 i from rfl, hc2,
          getNode_modifyNode, if_pos rfl, hc1, getNode_modifyNode,
          if_neg (Ne.symm hpne_i), hgi]
        rfl
      exact nodeAt_of_getNode h3
    · by_cases hjp : j = p
      · rw [if_neg hji, if_pos hjp]
        have h3 : getNode c3 j = some { nodeAt c p with children := dictErase (nodeAt c p).children (nodeAt c i).tokens } := by
          rw [hjp, show getNode c3 p = getNode c2 p from rfl, hc2,
            getNode_modifyNode, if_neg hpne_i, hc1, getNode_modifyNode,
            if_pos rfl, getNode_eq_nodeAt hplt']
          rfl
        exact nodeAt_of_getNode h3
      · rw [if_neg hji, if_neg hjp]
        have h3 : getNode c3 j = getNode c j := by
          rw [show getNode c3 j = getNode c2 j from rfl, hc2,
            getNode_modifyNode, if_neg hji, hc1, getNode_modifyNode,
            if_neg hjp]
        unfold nodeAt
        rw [h3]
  have hpn3 : nodeAt c3 p = { nodeAt c p with children := dictErase (nodeAt c p).children (nodeAt c i).tokens } := by
    rw [hAt3 p hplt, if_neg hpne_i, if_pos rfl]
  have hpn_children : (nodeAt c3 p).children
      = (nodeAt c0 p).children.filter
          (fun e => decide (e.2 ∉ acc.map (fun e2 => e2.1) ++ [i])) := by
    rw [hpn3]
    show dictErase (nodeAt c p).children (nodeAt c i).tokens = _
    rw [hE.chil p hplt, htok_i]
    exact dictErase_filter (nodeAt c0 p).children
      (acc.map (fun e2 => e2.1)) (nodeAt c0 i).tokens i hpc (hkeys p hplt)
      huniq hidone
  have hpn_ref : (nodeAt c3 p).ref_count = (nodeAt c0 p).ref_count := by
    rw [hpn3]
    exact (hE.core p hplt).2.2.1
  have htime_p3 : (nodeAt c3 p).access_time = (nodeAt c0 p).access_time := by
    rw [hpn3]
    exact (hE.core p hplt).2.2.2
  have hcore3 : ∀ j, j < c0.nodes.length →
      (nodeAt c3 j).tokens = (nodeAt c0 j).tokens ∧
      (nodeAt c3 j).page = (nodeAt c0 j).page ∧
      (nodeAt c3 j).ref_count = (nodeAt c0 j).ref_count ∧
      (nodeAt c3 j).access_time = (nodeAt c0 j).access_time := by
    intro j hj
    rw [hAt3 j hj]
    by_cases hji : j = i
    · rw [if_pos hji, hji]
      exact ⟨htok_i, hpage_i, href_i, htime_i⟩
    · by_cases hjp : j = p
      · rw [if_neg hji, if_pos hjp, hjp]
        exact hE.core p hplt
      · rw [if_neg hji, if_neg hjp]
        exact hE.core j hj
  have hpar3 : ∀ j, j < c0.nodes.length → (nodeAt c3 j).parent =
      (if j ∈ acc.map (fun e => e.1) ++ [i] then none
       else (nodeAt c0 j).parent) := by
    intro j hj
    rw [hAt3 j hj]
    by_cases hji : j = i
    · rw [if_pos hji]
      have hmm : j ∈ acc.map (fun e => e.1) ++ [i] := by
        rw [hji]
        exact List.mem_append_right _ (by simp)
      rw [if_pos hmm]
    · by_cases hjp : j = p
      · rw [if_neg hji, if_pos hjp, hjp]
        show (nodeAt c p).parent = _
        rw [hE.par p hplt, if_neg hpdone, if_neg hpd']
      · rw [if_neg hji, if_neg hjp, hE.par j hj]
        have hjd' : j ∉ acc.map (fun e => e.1) ++ [i] →
            j ∉ acc.map (fun e => e.1) := by
          intro hmm h
          exact hmm (List.mem_append_left _ h)
        by_cases hjd : j ∈ acc.map (fun e => e.1)
        · rw [if_pos hjd, if_pos (List.mem_append_left _ hjd)]
        · have hjd2 : j ∉ acc.map (fun e => e.1) ++ [i] := by
            intro hmm
            rcases List.mem_append.mp hmm with h | h
            · exact hjd h
            · exact hji (by simpa using h)
          rw [if_neg hjd, if_neg hjd2]
  have hchil3 : ∀ j, j < c0.nodes.length → (nodeAt c3 j).children
      = (nodeAt c0 j).children.filter
          (fun e => decide (e.2 ∉ acc.map (fun e2 => e2.1) ++ [i])) := by
    intro j hj
    by_cases hjp : j = p
    · rw [hjp]
      exact hpn_children
    · by_cases hji : j = i
      · rw [hji]
        have hch3 : (nodeAt c3 i).children = (nodeAt c i).children := by
          rw [hAt3 i hilt, if_pos rfl]
        rw [hch3, hE.chil i hilt]
        apply List.filter_congr
        intro e he
        have he2 : e.2 ∈ acc.map (fun e2 : Nat × Nat => e2.1) :=
          hich e.2 (by unfold childIds; exact List.mem_map.mpr ⟨e, he, rfl⟩)
        simp [he2, List.mem_append]
      · have hch3 : (nodeAt c3 j).children = (nodeAt c j).children := by
          rw [hAt3 j hj, if_neg hji, if_neg hjp]
        rw [hch3, hE.chil j hj]
        apply List.filter_congr
        intro e he
        have hnei : e.2 ≠ i := fun hh => hjp (honly_p j hj e he hh)
        by_cases hed : e.2 ∈ acc.map (fun e2 : Nat × Nat => e2.1) <;>
          simp [hed, hnei, List.mem_append]
  have hlv3 : ∀ x, x ∈ c3.leaves ↔ (x ∈ c.leaves ∧ x ≠ i) := by
    intro x
    have hc3l : c3.leaves = c2.leaves.filter (fun y => y ≠ i) := rfl
    rw [hc3l, hc2leaves]
    simp [List.mem_filter]
  by_cases hcond : p ≠ 0 ∧ (nodeAt c3 p).children = []
  · rw [if_pos hcond]
    have hsub_p : ∀ k ∈ childIds c0 p,
        k ∈ acc.map (fun e => e.1) ++ [i] := by
      intro k hk
      unfold childIds at hk
      rw [List.mem_map] at hk
      obtain ⟨e, he, hei⟩ := hk
      have hfe := List.filter_eq_nil.mp
        (by rw [← hpn_children]; exact hcond.2) e he
      simp only [decide_eq_true_eq] at hfe
      rw [← hei]
      exact not_not.mp hfe
    have hlv4 : ∀ x, x ∈ listAdd c3.leaves p ↔ (x < c0.nodes.length ∧
        x ≠ 0 ∧ x ∉ acc.map (fun e => e.1) ++ [i] ∧
        ∀ k ∈ childIds c0 x, k ∈ acc.map (fun e => e.1) ++ [i]) := by
      intro x
      rw [mem_listAdd_iff, hlv3 x, hE.leaves_iff x]
      constructor
      · rintro (⟨⟨h1, h2, h3, h4⟩, hxi⟩ | hxp)
        · refine ⟨h1, h2, ?_, fun k hk => List.mem_append_left _ (h4 k hk)⟩
          intro hmm
          rcases List.mem_append.mp hmm with h | h
          · exact h3 h
          · exact hxi (by simpa using h)
        · rw [hxp]
          exact ⟨hplt, hcond.1, hpd', hsub_p⟩
      · rintro ⟨h1, h2, h3, h4⟩
        by_cases hxp : x = p
        · exact Or.inr hxp
        · left
          have hxi : x ≠ i := by
            intro hxeq
            rw [hxeq] at h3
            exact h3 (List.mem_append_right _ (by simp))
          refine ⟨⟨h1, h2, fun h => h3 (List.mem_append_left _ h), ?_⟩, hxi⟩
          intro k hk
          rcases List.mem_append.mp (h4 k hk) with h | h
          · exact h
          · exfalso
            have hki : k = i := by simpa using h
            rw [hki] at hk
            unfold childIds at hk
            rw [List.mem_map] at hk
            obtain ⟨e, he, hei⟩ := hk
            exact hxp (honly_p x h1 e he hei)
    by_cases hrefp : (nodeAt c3 p).ref_count = 0
    · rw [if_pos hrefp]
      have hrefp0 : (nodeAt c0 p).ref_count = 0 := by
        rw [← hpn_ref]
        exact hrefp
      refine ⟨{ c3 with leaves := listAdd c3.leaves p },
        heap1 ++ [((nodeAt c3 p).access_time, p)], rfl, ?_⟩
      refine ⟨hlen3, hcore3, ?_, ?_, ?_, ?_, ?_, ?_, hgood'⟩
      · intro j hj
        rw [hmap]
        exact hpar3 j hj
      · intro j hj
        rw [hmap]
        exact hchil3 j hj
      · intro x
        rw [hmap]
        exact hlv4 x
      · rw [List.map_append, List.nodup_append]
        refine ⟨hh1_nd, by simp, ?_⟩
        intro a ha hai
        have haa : a = p := by simpa using hai
        rw [haa] at ha
        exact hp_not_h1 ha
      · intro e he
        rw [hmap]
        rcases List.mem_append.mp he with h | h
        · exact hh1_mem e h
        · have he2 : e = ((nodeAt c3 p).access_time, p) := by simpa using h
          rw [he2]
          exact ⟨htime_p3, hplt, hcond.1, hrefp0, hpd', hsub_p⟩
      · intro j hj
        rw [hmap] at hj
        by_cases hjp : j = p
        · rw [List.map_append, hjp]
          exact List.mem_append_right _ (by simp)
        · have hj2 := hElig_shift j hjp hj
          have hj3 := hE.heap_complete j hj2
          rcases (hheap_ids j).mp hj3 with h | h
          · exfalso
            rw [h] at hj
            exact hj.2.2.2.1 (List.mem_append_right _ (by simp))
          · rw [List.map_append]
            exact List.mem_append_left _ h
    · rw [if_neg hrefp]
      have hrefp0 : (nodeAt c0 p).ref_count ≠ 0 := by
        rw [← hpn_ref]
        exact hrefp
      refine ⟨{ c3 with leaves := listAdd c3.leaves p }, heap1, rfl, ?_⟩
      refine ⟨hlen3, hcore3, ?_, ?_, ?_, hh1_nd, ?_, ?_, hgood'⟩
      · intro j hj
        rw [hmap]
        exact hpar3 j hj
      · intro j hj
        rw [hmap]
        exact hchil3 j hj
      · intro x
        rw [hmap]
        exact hlv4 x
      · intro e he
        rw [hmap]
        exact hh1_mem e he
      · intro j hj
        rw [hmap] at hj
        by_cases hjp : j = p
        · exfalso
          apply hrefp0
          rw [← hjp]
          exact hj.2.2.1
        · have hj2 := hElig_shift j hjp hj
          have hj3 := hE.heap_complete j hj2
          rcases (hheap_ids j).mp hj3 with h | h
          · exfalso
            rw [h] at hj
            exact hj.2.2.2.1 (List.mem_append_right _ (by simp))
          · exact h
  · rw [if_neg hcond]
    have hnot_leaf_p : ¬(p ≠ 0 ∧ ∀ k ∈ childIds c0 p,
        k ∈ acc.map (fun e => e.1) ++ [i]) := by
      rintro ⟨hp0, hsub⟩
      apply hcond
      refine ⟨hp0, ?_⟩
      rw [hpn_children]
      apply List.filter_eq_nil.mpr
      intro e he
      have hh := hsub e.2
        (by unfold childIds; exact List.mem_map.mpr ⟨e, he, rfl⟩)
      simp [hh]
    refine ⟨c3, heap1, rfl, ?_⟩
    refine ⟨hlen3, hcore3, ?_, ?_, ?_, hh1_nd, ?_, ?_, hgood'⟩
    · intro j hj
      rw [hmap]
      exact hpar3 j hj
    · intro j hj
      rw [hmap]
      exact hchil3 j hj
    · intro x
      rw [hmap]
      rw [hlv3 x, hE.leaves_iff x]
      constructor
      · rintro ⟨⟨h1, h2, h3, h4⟩, hxi⟩
        refine ⟨h1, h2, ?_, fun k hk => List.mem_append_left _ (h4 k hk)⟩
        intro hmm
        rcases List.mem_append.mp hmm with h | h
        · exact h3 h
        · exact hxi (by simpa using h)
      · rintro ⟨h1, h2, h3, h4⟩
        by_cases hxp : x = p
        · exfalso
          rw [hxp] at h2 h4
          exact hnot_leaf_p ⟨h2, h4⟩
        · have hxi : x ≠ i := by
            intro hxeq
            rw [hxeq] at h3
            exact h3 (List.mem_append_right _ (by simp))
          refine ⟨⟨h1, h2, fun h => h3 (List.mem_append_left _ h), ?_⟩, hxi⟩
          intro k hk
          rcases List.mem_append.mp (h4 k hk) with h | h
          · exact h
          · exfalso
            have hki : k = i := by simpa using h
            rw [hki] at hk
            unfold childIds at hk
            rw [List.mem_map] at hk
            obtain ⟨e, he, hei⟩ := hk
            exact hxp (honly_p x h1 e he hei)
    · intro e he
      rw [hmap]
      exact hh1_mem e he
    · intro j hj
      rw [hmap] at hj
      by_cases hjp : j = p
      · exfalso
        apply hnot_leaf_p
        rw [← hjp]
        exact ⟨hj.2.1, hj.2.2.2.2⟩
      · have hj2 := hElig_shift j hjp hj
        have hj3 := hE.heap_complete j hj2
        rcases (hheap_ids j).mp hj3 with h | h
        · exfalso
          rw [h] at hj
          exact hj.2.2.2.1 (List.mem_append_right _ (by simp))
        · exact h

/-- Any successful run of the eviction loop started in the loop invariant
produces a structurally correct eviction record. -/
theorem evictLoop_ok_good (c0 : Cache) (hI : Invariants c0) :
    ∀ (fuel : Nat) (c : Cache) (heap acc : List (Nat × Nat)) (maxP : Int)
      (accF : List (Nat × Nat)) (cF : Cache),
      EvictInv c0 c heap acc →
      evictLoop fuel c heap acc maxP = (.ok accF, cF) →
      AccGood c0 accF := by
  intro fuel
  induction fuel with
  | zero =>
    intro c heap acc maxP accF cF hE hok
    rw [evictLoop] at hok
    simp at hok
  | succ fuel ih =>
    intro c heap acc maxP accF cF hE hok
    by_cases hguard : heap.isEmpty = true ∨ ¬((acc.length : Int) < maxP)
    · rw [evictLoop, if_pos hguard] at hok
      injection hok with h1 h2
      injection h1 with h3
      rw [← h3]
      exact hE.good
    · have hcnt : (acc.length : Int) < maxP := by
        by_contra h
        exact hguard (Or.inr h)
      cases hpop : popMin heap with
      | error e =>
        rw [evictLoop, if_neg hguard, hpop] at hok
        simp at hok
      | ok pr =>
        rcases pr with ⟨⟨t, i⟩, heap1⟩
        obtain ⟨cN, heapN, heq, hEN⟩ :=
          evictStep c0 hI c heap acc t i heap1 hE hpop fuel maxP hcnt
        rw [heq] at hok
        exact ih cN heapN (acc ++ [(i, (nodeAt c0 i).page)]) maxP accF cF
          hEN hok

/-- With pairwise distinct access times the eviction loop always succeeds,
with a structurally correct record evicted in LRU order. -/
theorem evictLoop_total (c0 : Cache) (hI : Invariants c0)
    (hD : DistinctTimes c0) :
    ∀ (fuel : Nat) (c : Cache) (heap acc : List (Nat × Nat)) (maxP : Int),
      EvictInv c0 c heap acc → EvictOrdered c0 acc →
      c0.nodes.length + 1 ≤ fuel + acc.length →
      ∃ accF cF, evictLoop fuel c heap acc maxP = (.ok accF, cF) ∧
        AccGood c0 accF ∧ EvictOrdered c0 accF := by
  intro fuel
  induction fuel with
  | zero =>
    intro c heap acc maxP hE hOrd hfuel
    exfalso
    have hsub : acc.map (fun e => e.1) ⊆ List.range c0.nodes.length := by
      intro x hx
      rw [List.mem_map] at hx
      obtain ⟨e, he, hei⟩ := hx
      rw [List.mem_range, ← hei]
      exact (hE.good.props e he).2.2.1
    have hle := (hE.good.nd.subperm hsub).length_le
    rw [List.length_map, List.length_range] at hle
    omega
  | succ fuel ih =>
    intro c heap acc maxP hE hOrd hfuel
    by_cases hguard : heap.isEmpty = true ∨ ¬((acc.length : Int) < maxP)
    · refine ⟨acc, c, ?_, hE.good, hOrd⟩
      rw [evictLoop, if_pos hguard]
    · have hcnt : (acc.length : Int) < maxP := by
        by_contra h
        exact hguard (Or.inr h)
      have hne : heap ≠ [] := by
        intro h
        exact hguard (Or.inl (by rw [h]; rfl))
      have hdist : ∀ a ∈ heap, ∀ b ∈ heap, a ≠ b → a.1 ≠ b.1 := by
        intro a ha b hb hab
        obtain ⟨ha1, hae⟩ := hE.heap_mem a ha
        obtain ⟨hb1, hbe⟩ := hE.heap_mem b hb
        have hne2 : a.2 ≠ b.2 := by
          intro h2
          exact hab (Prod.ext (by rw [ha1, hb1, h2]) h2)
        rw [ha1, hb1]
        exact hD a.2 hae.1 b.2 hbe.1 hne2
      obtain ⟨m, heap1, hpm, hmin⟩ := popMin_ok_spec heap hne hdist
      rcases m with ⟨t, i⟩
      obtain ⟨cN, heapN, heq, hEN⟩ :=
        evictStep c0 hI c heap acc t i heap1 hE hpm fuel maxP hcnt
      obtain ⟨ht, hElig⟩ := hE.heap_mem (t, i)
        ((popMin_perm heap (t, i) heap1 hpm).symm.subset
          (List.mem_cons_self _ _))
      have hOrd' : EvictOrdered c0 (acc ++ [(i, (nodeAt c0 i).page)]) := by
        intro k h q hq
        by_cases hk : k < acc.length
        · rw [get_append_left_of_lt _ _ k hk h]
          rw [take_append_of_le _ _ k (le_of_lt hk)] at hq
          exact hOrd k hk q hq
        · have hkeq : k = acc.length := by
            rw [List.length_append, List.length_singleton] at h
            omega
          subst hkeq
          rw [get_append_len]
          rw [take_append_of_le _ _ _ (le_refl _), List.take_length] at hq
          have hqin := hE.heap_complete q hq
          rw [List.mem_map] at hqin
          obtain ⟨e, he, hei⟩ := hqin
          have h1 := hmin e he
          obtain ⟨he1, _⟩ := hE.heap_mem e he
          rw [he1, hei] at h1
          have h2 : t ≤ (nodeAt c0 q).access_time := h1
          have ht2 : t = (nodeAt c0 i).access_time := ht
          rw [ht2] at h2
          exact h2
      have hfuel2 : c0.nodes.length + 1
          ≤ fuel + (acc ++ [(i, (nodeAt c0 i).page)]).length := by
        rw [List.length_append, List.length_singleton]
        omega
      obtain ⟨accF, cF, hloop, hgoodF, hordF⟩ :=
        ih cN heapN (acc ++ [(i, (nodeAt c0 i).page)]) maxP hEN hOrd' hfuel2
      exact ⟨accF, cF, by rw [heq]; exact hloop, hgoodF, hordF⟩

/-- C4: eviction respects references.  For every cache satisfying the
data-model invariants and every max_pages: whenever the eviction loop
completes, every freed entry belongs to a non-root node whose ref_count is 0,
carries that node's own page, no node is evicted twice, and each node is
evicted only after all of its children (its children dict is empty at that
moment); and on a run that raises, _evict_pages frees no pages at all. -/
theorem c4_evict_respects_references (c : Cache) (hI : Invariants c)
    (maxP : Int) :
    (∀ popped cF,
      evictLoop (c.nodes.length + (initialHeap c).length + 2) c
        (initialHeap c) [] maxP = (.ok popped, cF) →
      (popped.map (fun e => e.1)).Nodup ∧
      (∀ e ∈ popped, e.1 ≠ 0 ∧ (nodeAt c e.1).ref_count = 0 ∧
        e.2 = (nodeAt c e.1).page) ∧
      (∀ k, (h : k < popped.length) →
        ∀ ch ∈ childIds c (popped.get ⟨k, h⟩).1,
          ch ∈ (popped.take k).map (fun e => e.1))) ∧
    (∀ er cF, evict_pages c maxP = (.error er, cF) →
      cF.available_pages = c.available_pages) := by
  constructor
  · intro popped cF hok
    have hg := evictLoop_ok_good c hI
      (c.nodes.length + (initialHeap c).length + 2) c (initialHeap c) []
      maxP popped cF (evictInv_init c hI) hok
    exact ⟨hg.nd,
      fun e he => ⟨(hg.props e he).2.1, (hg.props e he).2.2.2,
        (hg.props e he).1⟩,
      hg.children_done⟩
  · intro er cF herr
    unfold evict_pages at herr
    dsimp only at herr
    obtain ⟨hf, _⟩ := evictLoop_frame
      (c.nodes.length + (initialHeap c).length + 2) c (initialHeap c) [] maxP
    rcases hev : evictLoop (c.nodes.length + (initialHeap c).length + 2) c
      (initialHeap c) [] maxP with ⟨r, c1⟩
    rw [hev] at herr hf
    cases r with
    | error e2 =>
      dsimp only at herr
      injection herr with h1 h2
      rw [← h2]
      exact hf.2.1
    | ok popped =>
      dsimp only at herr
      injection herr with h1 h2
      cases h1

def c4Root : TrieNode :=
  { tokens := [], page := 0, children := [([5], 1)], parent := none,
    ref_count := 0, access_time := 0 }

def c4Leaf : TrieNode :=
  { tokens := [5], page := 7, children := [], parent := some 0,
    ref_count := 0, access_time := 1 }

def c4Ex : Cache :=
  { tokens_per_page := 1, nodes := [c4Root, c4Leaf], leaves := [1],
    available_pages := [], now := 2, stamps := [] }

theorem c4_evict_witness :
    Invariants c4Ex ∧
    ((∀ popped cF,
      evictLoop (c4Ex.nodes.length + (initialHeap c4Ex).length + 2) c4Ex
        (initialHeap c4Ex) [] 1 = (.ok popped, cF) →
      (popped.map (fun e => e.1)).Nodup ∧
      (∀ e ∈ popped, e.1 ≠ 0 ∧ (nodeAt c4Ex e.1).ref_count = 0 ∧
        e.2 = (nodeAt c4Ex e.1).page) ∧
      (∀ k, (h : k < popped.length) →
        ∀ ch ∈ childIds c4Ex (popped.get ⟨k, h⟩).1,
          ch ∈ (popped.take k).map (fun e => e.1))) ∧
    (∀ er cF, evict_pages c4Ex 1 = (.error er, cF) →
      cF.available_pages = c4Ex.available_pages)) :=
  ⟨by decide, c4_evict_respects_references c4Ex (by decide) 1⟩

/-- C7: LRU eviction order.  For every cache satisfying the data-model
invariants whose nodes carry pairwise distinct access times, the eviction
loop succeeds, each evicted node is eligible at its turn (an unreferenced,
not yet evicted non-root node all of whose children are already evicted —
initially exactly the unreferenced leaves), and each evicted node has
minimal access time among all nodes eligible at its turn: the smallest
access time goes first and later evictions stay minimal over the current
candidates, including parents that became eligible when their subtree
emptied. -/
theorem c7_lru_order (c : Cache) (hI : Invariants c) (hD : DistinctTimes c)
    (maxP : Int) :
    ∃ popped cF,
      evictLoop (c.nodes.length + (initialHeap c).length + 2) c
        (initialHeap c) [] maxP = (.ok popped, cF) ∧
      (∀ k, (h : k < popped.length) →
        Eligible c ((popped.take k).map (fun e => e.1))
          (popped.get ⟨k, h⟩).1) ∧
      (∀ k, (h : k < popped.length) → ∀ q,
        Eligible c ((popped.take k).map (fun e => e.1)) q →
        (nodeAt c (popped.get ⟨k, h⟩).1).access_time
          ≤ (nodeAt c q).access_time) := by
  obtain ⟨accF, cF, hloop, hgood, hord⟩ := evictLoop_total c hI hD
    (c.nodes.length + (initialHeap c).length + 2) c (initialHeap c) [] maxP
    (evictInv_init c hI) (fun k h _ _ => absurd h (by simp)) (by omega)
  refine ⟨accF, cF, hloop, ?_, hord⟩
  intro k h
  have hmemk : accF.get ⟨k, h⟩ ∈ accF := List.get_mem accF k h
  have hp := hgood.props _ hmemk
  refine ⟨hp.2.2.1, hp.2.1, hp.2.2.2, ?_, hgood.children_done k h⟩
  intro hmem
  have hlen2 : k < (accF.map (fun e => e.1)).length := by
    rw [List.length_map]
    exact h
  apply nodup_get_not_mem_take (accF.map (fun e => e.1)) hgood.nd k hlen2
  have hget : (accF.map (fun e => e.1)).get ⟨k, hlen2⟩
      = (accF.get ⟨k, h⟩).1 := by
    rw [List.get_map]
  rw [hget, ← List.map_take]
  exact hmem

def c7Root : TrieNode :=
  { tokens := [], page := 0, children := [([1], 1), ([2], 2)], parent := none,
    ref_count := 0, access_time := 0 }

def c7LeafA : TrieNode :=
  { tokens := [1], page := 11, children := [], parent := some 0,
    ref_count := 0, access_time := 2 }

def c7LeafB : TrieNode :=
  { tokens := [2], page := 12, children := [], parent := some 0,
    ref_count := 0, access_time := 1 }

def c7Ex : Cache :=
  { tokens_per_page := 1, nodes := [c7Root, c7LeafA, c7LeafB],
    leaves := [1, 2], available_pages := [], now := 3, stamps := [] }

theorem c7_lru_witness :
    Invariants c7Ex ∧ DistinctTimes c7Ex ∧
    (∃ popped cF,
      evictLoop (c7Ex.nodes.length + (initialHeap c7Ex).length + 2) c7Ex
        (initialHeap c7Ex) [] 5 = (.ok popped, cF) ∧
      (∀ k, (h : k < popped.length) →
        Eligible c7Ex ((popped.take k).map (fun e => e.1))
          (popped.get ⟨k, h⟩).1) ∧
      (∀ k, (h : k < popped.length) → ∀ q,
        Eligible c7Ex ((popped.take k).map (fun e => e.1)) q →
        (nodeAt c7Ex (popped.get ⟨k, h⟩).1).access_time
          ≤ (nodeAt c7Ex q).access_time)) :=
  ⟨by decide, by decide, c7_lru_order c7Ex (by decide) (by decide) 5⟩

/-- C10 (amended): _evict_pages is total and returns the collected count
provided the live nodes carry pairwise distinct access times.  As stated the
claim is false: with tied access times on two evictable leaves the heap
comparison falls through to TrieNode, which defines no ordering, and the
call raises TypeError (theorem c10_evict_tie_cex). -/
theorem c10_evict_total (c : Cache) (hI : Invariants c) (hD : DistinctTimes c)
    (maxP : Int) :
    ∃ n cF, evict_pages c maxP = (.ok n, cF) := by
  obtain ⟨accF, cF, hloop, _, _⟩ := evictLoop_total c hI hD
    (c.nodes.length + (initialHeap c).length + 2) c (initialHeap c) [] maxP
    (evictInv_init c hI) (fun k h _ _ => absurd h (by simp)) (by omega)
  unfold evict_pages
  dsimp only
  rw [hloop]
  exact ⟨accF.length, _, rfl⟩

def c10Root : TrieNode :=
  { tokens := [], page := 0, children := [([9], 1)], parent := none,
    ref_count := 0, access_time := 0 }

def c10Leaf : TrieNode :=
  { tokens := [9], page := 4, children := [], parent := some 0,
    ref_count := 0, access_time := 3 }

def c10Ex : Cache :=
  { tokens_per_page := 1, nodes := [c10Root, c10Leaf], leaves := [1],
    available_pages := [], now := 4, stamps := [] }

theorem c10_evict_total_witness :
    Invariants c10Ex ∧ DistinctTimes c10Ex ∧
    (∃ n cF, evict_pages c10Ex 1 = (.ok n, cF)) :=
  ⟨by decide, by decide, c10_evict_total c10Ex (by decide) (by decide) 1⟩
